import Mathlib

/-!
Verification of the geodome repository (geodome.py, fibonacci.py).

The development shallowly embeds the two source files:
* the combinatorial face layer of GeodesicDome.tessellate (edge dictionary
  vv2v, midpoint-vertex allocation, face rebuilding),
* the real-valued vertex layer (newvert, the analytic icosahedron,
  fibonacci_sphere), with float64 arithmetic modelled by exact reals,
* TriangleMesh.force_ccw over an arbitrary linear ordered field,
* TriangleMesh.save_as_ply as a list of text lines.
-/

namespace Geodome

/-! ### Faces and directed edges -/

/-- A directed edge: an ordered pair of vertex indices. -/
abbrev DEdge := Nat × Nat

/-- A face: an ordered triple of vertex indices, as one row of `self.f`. -/
abbrev Face := Nat × Nat × Nat

/-- Reverse a directed edge. -/
def swapE (e : DEdge) : DEdge := (e.2, e.1)

/-- Canonical (sorted) representative of the undirected edge under `e`. -/
def uedge (e : DEdge) : DEdge := if e.1 ≤ e.2 then e else swapE e

/-- The three directed edges of a face, in the traversal order of the code:
`for i, j in zip([0, 1, 2], [1, 2, 0])`. -/
def dedges (t : Face) : List DEdge := [(t.1, t.2.1), (t.2.1, t.2.2), (t.2.2, t.1)]

/-- All directed edges of a face list, in traversal order. -/
def allDedges : List Face → List DEdge
  | [] => []
  | t :: ts => dedges t ++ allDedges ts

/-- The canonical edges: those directed edges `(i, j)` with `i < j`, i.e. the
traversals for which the code allocates a new midpoint vertex
(`if tri[i] < tri[j]`), in allocation order. -/
def canonEdges (fs : List Face) : List DEdge :=
  (allDedges fs).filter (fun e => decide (e.1 < e.2))

/-- The vertices of a face, as a list. -/
def vlist (t : Face) : List Nat := [t.1, t.2.1, t.2.2]

/-- Winding consistency: every directed edge of the face list is non-degenerate,
occurs exactly once, and its reverse also occurs exactly once.  Equivalently:
every undirected edge lies in exactly two faces which traverse it in opposite
directions. -/
def Wind (fs : List Face) : Prop :=
  ∀ e ∈ allDedges fs, e.1 ≠ e.2 ∧
    (allDedges fs).count e = 1 ∧ (allDedges fs).count (swapE e) = 1

instance (fs : List Face) : Decidable (Wind fs) := by
  unfold Wind; infer_instance

/-- No two distinct faces have the same vertex set. -/
def FacesSep (fs : List Face) : Prop :=
  ∀ t ∈ fs, ∀ t' ∈ fs, vlist t ⊆ vlist t' → vlist t' ⊆ vlist t → t = t'

instance (fs : List Face) : Decidable (FacesSep fs) := by
  unfold FacesSep; infer_instance

/-- All face indices reference one of the first `nv` vertices. -/
def okF (nv : Nat) (fs : List Face) : Prop :=
  ∀ t ∈ fs, t.1 < nv ∧ t.2.1 < nv ∧ t.2.2 < nv

instance (nv : Nat) (fs : List Face) : Decidable (okF nv fs) := by
  unfold okF; infer_instance

/-- The number of distinct undirected edges of a face list. -/
def numUEdges (fs : List Face) : Nat := ((allDedges fs).map uedge).toFinset.card

/-! ### The edge dictionary `vv2v` -/

/-- State of the midpoint-allocation loop: the dictionary `vv2v`, the next
fresh vertex id `vid`, and the canonical edge of each allocated midpoint in
allocation order (the loop appends `newvert(v[tri[i]], v[tri[j]])` to `v2`
exactly when it allocates). -/
structure BuildSt where
  d : DEdge → Option Nat
  vid : Nat
  src : List DEdge

/-- Python dictionary update `m[k] = v`. -/
def insertD (m : DEdge → Option Nat) (k : DEdge) (v : Nat) : DEdge → Option Nat :=
  fun k' => if k' = k then some v else m k'

/-- Process one directed edge `(tri[i], tri[j])` of the allocation loop:
when `tri[i] < tri[j]`, set `vv2v[tri[i], tri[j]] = vv2v[tri[j], tri[i]] = vid`,
increment `vid` and record the appended midpoint source edge. -/
def insE (st : BuildSt) (e : DEdge) : BuildSt :=
  if e.1 < e.2 then
    { d := insertD (insertD st.d e st.vid) (swapE e) st.vid
      vid := st.vid + 1
      src := st.src ++ [e] }
  else st

/-- The whole allocation loop over all faces (`vid` starts at `len(v)`). -/
def buildSt (nv : Nat) (fs : List Face) : BuildSt :=
  (allDedges fs).foldl insE ⟨fun _ => none, nv, []⟩

/-- The face-rebuilding loop: each face `tri` is replaced by the four faces
`[tri[0], vv2v[tri[0],tri[1]], vv2v[tri[2],tri[0]]]`,
`[tri[1], vv2v[tri[1],tri[2]], vv2v[tri[0],tri[1]]]`,
`[tri[2], vv2v[tri[2],tri[0]], vv2v[tri[1],tri[2]]]`,
`[vv2v[tri[0],tri[1]], vv2v[tri[1],tri[2]], vv2v[tri[2],tri[0]]]`.
A missing dictionary key (Python `KeyError`) yields `none`. -/
def rebuild (d : DEdge → Option Nat) : List Face → Option (List Face)
  | [] => some []
  | t :: ts => do
      let m01 ← d (t.1, t.2.1)
      let m12 ← d (t.2.1, t.2.2)
      let m20 ← d (t.2.2, t.1)
      let rest ← rebuild d ts
      some ((t.1, m01, m20) :: (t.2.1, m12, m01) :: (t.2.2, m20, m12) ::
        (m01, m12, m20) :: rest)

/-- One subdivision iteration at the face level.  `none` models an uncaught
exception: either the `np.vstack` failure when no midpoint was allocated
(`np.array([])` has the wrong shape), or a `KeyError` in the rebuilding loop. -/
def stepF (nv : Nat) (fs : List Face) : Option (Nat × List Face) :=
  let st := buildSt nv fs
  if st.src.isEmpty then none
  else (rebuild st.d fs).map (fun f2 => (st.vid, f2))

/-- `tessellate(iter)` at the face level: `iter` subdivision iterations. -/
def tessF : Nat → Nat → List Face → Option (Nat × List Face)
  | 0, nv, fs => some (nv, fs)
  | k + 1, nv, fs => (stepF nv fs).bind (fun p => tessF k p.1 p.2)

/-! ### The hardcoded icosahedron face table -/

/-- The 20 hardcoded faces of `GeodesicDome.__init__`. -/
def icoF : List Face :=
  [(2, 0, 1), (3, 0, 2), (4, 0, 3), (5, 0, 4), (1, 0, 5),
   (2, 1, 6), (7, 2, 6), (3, 2, 7), (8, 3, 7), (4, 3, 8),
   (9, 4, 8), (5, 4, 9), (10, 5, 9), (6, 1, 10), (1, 5, 10),
   (6, 11, 7), (7, 11, 8), (8, 11, 9), (9, 11, 10), (10, 11, 6)]

/-! ### Predicates used to state the claims -/

/-- A closed manifold: every undirected edge of the face list lies in exactly
two faces (no orientation requirement). -/
def ClosedManifold (fs : List Face) : Prop :=
  ∀ e ∈ allDedges fs, e.1 ≠ e.2 ∧ ((allDedges fs).map uedge).count (uedge e) = 2

instance (fs : List Face) : Decidable (ClosedManifold fs) := by
  unfold ClosedManifold; infer_instance

/-- Consistent orientation, membership level: no degenerate directed edge, and
the reverse of every directed edge also occurs. -/
def Orient (fs : List Face) : Prop :=
  ∀ e ∈ allDedges fs, e.1 ≠ e.2 ∧ swapE e ∈ allDedges fs

instance (fs : List Face) : Decidable (Orient fs) := by
  unfold Orient; infer_instance

/-! ### Concrete meshes used as test inputs -/

/-- A consistently wound tetrahedron. -/
def tetra : List Face := [(0, 1, 2), (0, 2, 3), (0, 3, 1), (1, 3, 2)]

/-- A tetrahedron whose last face is wound backwards: still a closed manifold
(every undirected edge lies in exactly two faces), but not consistently
oriented. -/
def misTetra : List Face := [(0, 1, 2), (0, 2, 3), (0, 3, 1), (1, 2, 3)]

/-- A mesh in which every undirected edge is shared by three faces. -/
def tripleMesh : List Face := [(0, 1, 2), (0, 1, 2), (2, 1, 0)]

/-- A single triangle: each of its edges lies in exactly one face. -/
def oneTri : List Face := [(0, 1, 2)]

/-- The doubled triangle: two faces glued along all three edges. -/
def dblTri : List Face := [(0, 1, 2), (2, 1, 0)]

/-! ### Child faces of one subdivision step (for stating the rebuild shape) -/

/-- The four child faces of `tri`, written with a total midpoint function, in
the order and winding of the rebuilding loop. -/
def child4 (mid : DEdge → Nat) (t : Face) : List Face :=
  [(t.1, mid (t.1, t.2.1), mid (t.2.2, t.1)),
   (t.2.1, mid (t.2.1, t.2.2), mid (t.1, t.2.1)),
   (t.2.2, mid (t.2.2, t.1), mid (t.2.1, t.2.2)),
   (mid (t.1, t.2.1), mid (t.2.1, t.2.2), mid (t.2.2, t.1))]

/-- Concatenation of all child faces. -/
def catChildren (mid : DEdge → Nat) : List Face → List Face
  | [] => []
  | t :: ts => child4 mid t ++ catChildren mid ts

/-- The two halves into which a parent directed edge is split. -/
def splitE (mid : DEdge → Nat) (e : DEdge) : List DEdge := [(e.1, mid e), (mid e, e.2)]

/-- All split halves of a list of parent directed edges. -/
def allSplits (mid : DEdge → Nat) : List DEdge → List DEdge
  | [] => []
  | e :: es => splitE mid e ++ allSplits mid es

/-- The six directed edges of the child faces of `t` joining two midpoints. -/
def inners (mid : DEdge → Nat) (t : Face) : List DEdge :=
  [(mid (t.1, t.2.1), mid (t.2.2, t.1)),
   (mid (t.2.1, t.2.2), mid (t.1, t.2.1)),
   (mid (t.2.2, t.1), mid (t.2.1, t.2.2)),
   (mid (t.1, t.2.1), mid (t.2.1, t.2.2)),
   (mid (t.2.1, t.2.2), mid (t.2.2, t.1)),
   (mid (t.2.2, t.1), mid (t.1, t.2.1))]

/-! ### The real-valued vertex layer

Float64 arithmetic of the source is modelled by exact real arithmetic. -/

/-- A 3D point, one row of `self.v`. -/
abbrev V3 := ℝ × ℝ × ℝ

/-- Componentwise sum, `v0 + v1`. -/
noncomputable def add3 (p q : V3) : V3 := (p.1 + q.1, p.2.1 + q.2.1, p.2.2 + q.2.2)

/-- Broadcast division, `v / r`. -/
noncomputable def div3 (p : V3) (r : ℝ) : V3 := (p.1 / r, p.2.1 / r, p.2.2 / r)

/-- Broadcast product, `v * r`. -/
noncomputable def mul3 (p : V3) (r : ℝ) : V3 := (p.1 * r, p.2.1 * r, p.2.2 * r)

/-- `np.linalg.norm(v)`: the Euclidean norm. -/
noncomputable def norm3 (p : V3) : ℝ := Real.sqrt (p.1 ^ 2 + p.2.1 ^ 2 + p.2.2 ^ 2)

/-- `newvert(v0, v1)` of `tessellate`: `v = v0 + v1; v /= np.linalg.norm(v)`. -/
noncomputable def newvert (v0 v1 : V3) : V3 :=
  div3 (add3 v0 v1) (norm3 (add3 v0 v1))

/-- Modelled from the spec's words for comparison with `newvert`: the midpoint
of the two endpoints, projected to the unit sphere by dividing by its norm. -/
noncomputable def normMid (p q : V3) : V3 :=
  div3 (div3 (add3 p q) 2) (norm3 (div3 (add3 p q) 2))

/-- `v[i]` (indices in range in all executions considered). -/
noncomputable def getV3 (vs : List V3) (i : Nat) : V3 := vs.getD i (0, 0, 0)

/-- One subdivision iteration with vertices: the allocation loop appends one
`newvert` per allocated midpoint, then `np.vstack` extends the vertex array
and the rebuilding loop replaces the faces. -/
noncomputable def stepV (vs : List V3) (fs : List Face) :
    Option (List V3 × List Face) :=
  let st := buildSt vs.length fs
  if st.src.isEmpty then none
  else (rebuild st.d fs).map (fun f2 =>
    (vs ++ st.src.map (fun e => newvert (getV3 vs e.1) (getV3 vs e.2)), f2))

/-- The `for _ in range(iter)` loop of `tessellate`. -/
noncomputable def tessV : Nat → List V3 × List Face → Option (List V3 × List Face)
  | 0, m => some m
  | k + 1, m => (stepV m.1 m.2).bind (tessV k)

/-- `self.tol`. -/
noncomputable def tol : ℝ := 1e-15

/-- `self.v[np.abs(self.v) < self.tol] = 0` at one coordinate. -/
noncomputable def snap (x : ℝ) : ℝ := if |x| < tol then 0 else x

/-- Near-zero snapping of one point. -/
noncomputable def snap3 (p : V3) : V3 := (snap p.1, snap p.2.1, snap p.2.2)

/-! ### The analytic icosahedron of `GeodesicDome.__init__` -/

/-- `p = (1 + np.sqrt(5)) / 2`. -/
noncomputable def icoP : ℝ := (1 + Real.sqrt 5) / 2

/-- `a = np.sqrt((3 + 4 * p) / 5) / 2`. -/
noncomputable def icoA : ℝ := Real.sqrt ((3 + 4 * icoP) / 5) / 2

/-- `b = np.sqrt(p / np.sqrt(5))`. -/
noncomputable def icoB : ℝ := Real.sqrt (icoP / Real.sqrt 5)

/-- `c = np.sqrt(3 / 4 - a ** 2)`. -/
noncomputable def icoC : ℝ := Real.sqrt (3 / 4 - icoA ^ 2)

/-- `d = np.sqrt(3 / 4 - (b - a) ** 2)`. -/
noncomputable def icoD : ℝ := Real.sqrt (3 / 4 - (icoB - icoA) ^ 2)

/-- The icosahedron in cylindrical coordinates `(r, theta, z)`. -/
noncomputable def icoCyl : List V3 :=
  [(0, 0, icoC + icoD / 2),
   (icoB, 2 * 0 * Real.pi / 5, icoD / 2),
   (icoB, 2 * 1 * Real.pi / 5, icoD / 2),
   (icoB, 2 * 2 * Real.pi / 5, icoD / 2),
   (icoB, 2 * 3 * Real.pi / 5, icoD / 2),
   (icoB, 2 * 4 * Real.pi / 5, icoD / 2),
   (icoB, (2 * 0 + 1) * Real.pi / 5, -(icoD / 2)),
   (icoB, (2 * 1 + 1) * Real.pi / 5, -(icoD / 2)),
   (icoB, (2 * 2 + 1) * Real.pi / 5, -(icoD / 2)),
   (icoB, (2 * 3 + 1) * Real.pi / 5, -(icoD / 2)),
   (icoB, (2 * 4 + 1) * Real.pi / 5, -(icoD / 2)),
   (0, 0, -(icoC + icoD / 2))]

/-- Cylindrical to Cartesian: `(r cos theta, r sin theta, z)`. -/
noncomputable def cylToCart (p : V3) : V3 :=
  (p.1 * Real.cos p.2.1, p.1 * Real.sin p.2.1, p.2.2)

/-- The Cartesian icosahedron vertices before scaling. -/
noncomputable def icoVraw : List V3 := icoCyl.map cylToCart

/-- `1 / self.v[0, 2]`: the scale normalizing the pole to `z = 1`. -/
noncomputable def icoScale : ℝ := 1 / (getV3 icoVraw 0).2.2

/-- `self.v` after `__init__`: scaled and with near-zero components snapped. -/
noncomputable def icoV : List V3 :=
  (icoVraw.map (fun q => mul3 q icoScale)).map snap3

/-- `GeodesicDome().tessellate(k)`: the subdivision iterations on the
icosahedron, then the final near-zero snap of the vertex array. -/
noncomputable def tessellate (k : Nat) : Option (List V3 × List Face) :=
  (tessV k (icoV, icoF)).map (fun m => (m.1.map snap3, m.2))

/-! ### `fibonacci_sphere` -/

/-- Point `i` of `fibonacci_sphere(samples)`, output in `(z, x, y)` order. -/
noncomputable def fibPoint (samples i : Nat) : V3 :=
  let phi := Real.pi * (Real.sqrt 5 - 1)
  let y : ℝ := 1 - ((i : ℝ) / ((samples : ℝ) - 1)) * 2
  let radius := Real.sqrt (1 - y ^ 2)
  let theta := phi * (i : ℝ)
  let x := Real.cos theta * radius
  let z := Real.sin theta * radius
  (z, x, y)

/-- `fibonacci_sphere(samples)`. -/
noncomputable def fibonacci_sphere (samples : Nat) : List V3 :=
  (List.range samples).map (fibPoint samples)

/-! ### `TriangleMesh.force_ccw` over an arbitrary linear ordered field -/

/-- A triangle mesh: vertex rows and face index triples. -/
structure TriMesh (α : Type) where
  v : List (α × α × α)
  f : List Face

section ForceCcw

variable {α : Type} [LinearOrderedField α]

/-- Row `i` of a vertex array. -/
def getP (vs : List (α × α × α)) (i : Nat) : α × α × α := vs.getD i (0, 0, 0)

/-- Componentwise difference. -/
def subP (p q : α × α × α) : α × α × α := (p.1 - q.1, p.2.1 - q.2.1, p.2.2 - q.2.2)

/-- `np.cross`. -/
def crossP (p q : α × α × α) : α × α × α :=
  (p.2.1 * q.2.2 - p.2.2 * q.2.1, p.2.2 * q.1 - p.1 * q.2.2, p.1 * q.2.1 - p.2.1 * q.1)

/-- Dot product. -/
def dotP (p q : α × α × α) : α := p.1 * q.1 + p.2.1 * q.2.1 + p.2.2 * q.2.2

/-- The signed quantity `dir` of `force_ccw` for one face:
`((v[b] - v[a]) x (v[c] - v[a])) . v[a]`. -/
def faceDir (vs : List (α × α × α)) (t : Face) : α :=
  dotP (crossP (subP (getP vs t.2.1) (getP vs t.1)) (subP (getP vs t.2.2) (getP vs t.1)))
    (getP vs t.1)

/-- The per-face action of `force_ccw`: swap the first two indices when
`dir < 0`. -/
def flipFace (vs : List (α × α × α)) (t : Face) : Face :=
  if faceDir vs t < 0 then (t.2.1, t.1, t.2.2) else t

/-- `force_ccw`: flip every face with inward normal, leave the rest. -/
def force_ccw (m : TriMesh α) : TriMesh α := ⟨m.v, m.f.map (flipFace m.v)⟩

end ForceCcw

/-! ### `TriangleMesh.save_as_ply` as a list of text lines -/

/-- Decimal digit characters. -/
def digChar : Nat → Char
  | 0 => '0' | 1 => '1' | 2 => '2' | 3 => '3' | 4 => '4'
  | 5 => '5' | 6 => '6' | 7 => '7' | 8 => '8' | _ => '9'

/-- Value of a decimal digit character. -/
def digVal (c : Char) : Option Nat :=
  if 48 ≤ c.toNat ∧ c.toNat ≤ 57 then some (c.toNat - 48) else none

/-- Decimal rendering of a natural number (Python `str`). -/
def natStr (n : Nat) : String :=
  if n = 0 then "0" else String.mk ((Nat.digits 10 n).reverse.map digChar)

/-- Parse a decimal numeral; `none` if empty or not all digits. -/
def parseNat (s : String) : Option Nat :=
  if s.data = [] then none
  else (s.data.mapM digVal).map (fun ds => Nat.ofDigits 10 ds.reverse)

/-- The nine header lines written by `save_as_ply`, verbatim. -/
def plyHeader (nv nf : Nat) : List String :=
  ["ply",
   "format ascii 1.0",
   "element vertex " ++ natStr nv,
   "property float x",
   "property float y",
   "property float z",
   "element face " ++ natStr nf,
   "property list uchar int vertex_indices",
   "end_header"]

/-- One vertex line `x y z` (the float formatting of `np.savetxt` is passed in
as a parameter; it is out of the claims' scope). -/
def vertexLine {α : Type} (fmt : α → String) (p : α × α × α) : String :=
  fmt p.1 ++ " " ++ fmt p.2.1 ++ " " ++ fmt p.2.2

/-- One face line `3 i j k` with 0-based indices. -/
def faceLine (t : Face) : String :=
  "3 " ++ natStr t.1 ++ " " ++ natStr t.2.1 ++ " " ++ natStr t.2.2

/-- `save_as_ply`: header, then one line per vertex, then one line per face. -/
def save_as_ply {α : Type} (m : TriMesh α) (fmt : α → String) : List String :=
  plyHeader m.v.length m.f.length ++ m.v.map (vertexLine fmt) ++ m.f.map faceLine

/-- Drop the first `n` characters. -/
def strDrop (s : String) (n : Nat) : String := String.mk (s.data.drop n)

/-- Re-read the vertex and face counts from the header of a written file:
line 2 is `element vertex <V>`, line 6 is `element face <F>`. -/
def readCounts (ls : List String) : Option (Nat × Nat) :=
  match ls[2]?, ls[6]? with
  | some lv, some lf =>
    match parseNat (strDrop lv 15), parseNat (strDrop lf 13) with
    | some nv, some nf => some (nv, nf)
    | _, _ => none
  | _, _ => none

/-! ### Internal invariants of the allocation loop (proof machinery) -/

/-- Soundness of the dictionary state: `vid` counts the allocations, recorded
source edges are increasing pairs, and every dictionary value `m` identifies
the allocation number `m - nv` whose key (in one of its two orientations) it
was set by. -/
def DSound (nv : Nat) (st : BuildSt) : Prop :=
  st.vid = nv + st.src.length ∧
  (∀ e ∈ st.src, e.1 < e.2) ∧
  (∀ k m, st.d k = some m →
    nv ≤ m ∧ m < st.vid ∧
    (k = st.src.getD (m - nv) (0, 0) ∨ k = swapE (st.src.getD (m - nv) (0, 0))))

/-- Completeness of the dictionary state: every allocation is still visible in
the dictionary, under both orientations of its key. -/
def DComplete (nv : Nat) (st : BuildSt) : Prop :=
  ∀ i < st.src.length,
    st.d (st.src.getD i (0, 0)) = some (nv + i) ∧
    st.d (swapE (st.src.getD i (0, 0))) = some (nv + i)

/-- The total midpoint-index function read off the finished dictionary. -/
def midF (nv : Nat) (fs : List Face) : DEdge → Nat :=
  fun e => ((buildSt nv fs).d e).getD 0

/-- A concrete vertex array used to instantiate vertex-level theorems. -/
noncomputable def vsExample : List V3 :=
  [(1, 0, 0), (0, 1, 0), (0, 0, 1), (0, 0, -1)]

/-- A concrete rational mesh with a well-oriented face, a flipped face, and a
degenerate face. -/
def meshExample : TriMesh ℚ :=
  ⟨[(0, 0, 1), (1, 0, 0), (0, 1, 0)], [(0, 1, 2), (1, 0, 2), (0, 0, 0)]⟩

/-- A concrete rational mesh with one inward-facing face. -/
def meshExampleB : TriMesh ℚ :=
  ⟨[(0, 0, 1), (1, 0, 0), (0, 1, 0)], [(1, 0, 2)]⟩

/-! ## Lemmas -/

/-! ### Directed and undirected edges -/

theorem swapE_swapE (e : DEdge) : swapE (swapE e) = e := rfl

theorem swapE_injEq {e e' : DEdge} : swapE e = swapE e' ↔ e = e' := by
  constructor
  · intro h
    have := congrArg swapE h
    simpa [swapE_swapE] using this
  · intro h; rw [h]

theorem uedge_swapE (e : DEdge) : uedge (swapE e) = uedge e := by
  rcases e with ⟨a, b⟩
  simp only [uedge, swapE]
  split <;> split <;> simp_all <;> omega

theorem allDedges_append (l1 l2 : List Face) :
    allDedges (l1 ++ l2) = allDedges l1 ++ allDedges l2 := by
  induction l1 with
  | nil => simp [allDedges]
  | cons t ts ih => simp [allDedges, ih]

theorem mem_allDedges {E : DEdge} {fs : List Face} :
    E ∈ allDedges fs ↔ ∃ t ∈ fs, E ∈ dedges t := by
  induction fs with
  | nil => simp [allDedges]
  | cons t ts ih =>
    simp only [allDedges, List.mem_append, ih, List.mem_cons]
    constructor
    · rintro (h | ⟨t', ht', he⟩)
      · exact ⟨t, Or.inl rfl, h⟩
      · exact ⟨t', Or.inr ht', he⟩
    · rintro ⟨t', ht' | ht', he⟩
      · subst ht'; exact Or.inl he
      · exact Or.inr ⟨t', ht', he⟩

theorem dedges_subset_allDedges {t : Face} {fs : List Face} (ht : t ∈ fs) :
    dedges t ⊆ allDedges fs := by
  intro e he
  exact mem_allDedges.mpr ⟨t, ht, he⟩

/-! ### The allocation fold -/

theorem insE_src (st : BuildSt) (e : DEdge) :
    (insE st e).src = st.src ++ (if e.1 < e.2 then [e] else []) := by
  by_cases he : e.1 < e.2 <;> simp [insE, he]

theorem foldl_insE_src (L : List DEdge) (st : BuildSt) :
    (L.foldl insE st).src = st.src ++ L.filter (fun e => decide (e.1 < e.2)) := by
  induction L generalizing st with
  | nil => simp
  | cons e es ih =>
    rw [List.foldl_cons, ih, insE_src, List.filter_cons]
    by_cases he : e.1 < e.2 <;> simp [he]

theorem buildSt_src (nv : Nat) (fs : List Face) :
    (buildSt nv fs).src = canonEdges fs := by
  rw [buildSt, foldl_insE_src]
  rfl

theorem insE_vid (st : BuildSt) (e : DEdge) :
    (insE st e).vid = st.vid + (if e.1 < e.2 then 1 else 0) := by
  by_cases he : e.1 < e.2 <;> simp [insE, he]

theorem foldl_insE_vid (L : List DEdge) (st : BuildSt) :
    (L.foldl insE st).vid = st.vid + (L.filter (fun e => decide (e.1 < e.2))).length := by
  induction L generalizing st with
  | nil => simp
  | cons e es ih =>
    rw [List.foldl_cons, ih, insE_vid, List.filter_cons]
    by_cases he : e.1 < e.2 <;> (simp [he]; try omega)

theorem buildSt_vid (nv : Nat) (fs : List Face) :
    (buildSt nv fs).vid = nv + (canonEdges fs).length := by
  rw [buildSt, foldl_insE_vid]
  rfl

theorem swapE_eq_iff {k e : DEdge} : swapE k = e ↔ k = swapE e := by
  constructor
  · intro h; rw [← h, swapE_swapE]
  · intro h; rw [h, swapE_swapE]

theorem ne_swapE_self {e : DEdge} (he : e.1 < e.2) : e ≠ swapE e := by
  intro hcontra
  rcases e with ⟨a, b⟩
  have hab : a < b := he
  simp only [swapE, Prod.mk.injEq] at hcontra
  omega

theorem insE_d_symm (st : BuildSt) (e : DEdge)
    (h : ∀ k, st.d (swapE k) = st.d k) (k : DEdge) :
    (insE st e).d (swapE k) = (insE st e).d k := by
  by_cases he : e.1 < e.2
  · have hee := ne_swapE_self he
    simp only [insE, he, if_pos, insertD]
    by_cases hk1 : k = e
    · subst hk1
      rw [if_pos rfl, if_neg hee, if_pos rfl]
    · by_cases hk2 : k = swapE e
      · subst hk2
        rw [swapE_swapE, if_neg hee, if_pos rfl, if_pos rfl]
      · have c1 : ¬(swapE k = swapE e) := fun hc => hk1 (swapE_injEq.mp hc)
        have c2 : ¬(swapE k = e) := fun hc => hk2 (swapE_eq_iff.mp hc)
        rw [if_neg c1, if_neg c2, if_neg hk2, if_neg hk1, h k]
  · simpa [insE, he] using h k

theorem foldl_insE_d_symm (L : List DEdge) (st : BuildSt)
    (h : ∀ k, st.d (swapE k) = st.d k) (k : DEdge) :
    ((L.foldl insE st).d) (swapE k) = ((L.foldl insE st).d) k := by
  induction L generalizing st with
  | nil => exact h k
  | cons e es ih => exact ih (insE st e) (insE_d_symm st e h)

theorem buildSt_d_symm (nv : Nat) (fs : List Face) (k : DEdge) :
    (buildSt nv fs).d (swapE k) = (buildSt nv fs).d k := by
  exact foldl_insE_d_symm _ _ (fun _ => rfl) k

theorem insE_dsound {nv : Nat} {st : BuildSt} (e : DEdge) (h : DSound nv st) :
    DSound nv (insE st e) := by
  obtain ⟨hvid, hinc, hval⟩ := h
  by_cases he : e.1 < e.2
  · simp only [insE, he, if_pos]
    refine ⟨by simp [hvid]; omega, ?_, ?_⟩
    · intro e' he'
      rcases List.mem_append.mp he' with h1 | h1
      · exact hinc e' h1
      · simp at h1; subst h1; exact he
    · intro k m hm
      simp only [insertD] at hm
      by_cases hk2 : k = swapE e
      · simp only [hk2, if_pos] at hm
        have hmv : m = st.vid := by
          have := hm; simp at this; omega
        subst hmv
        refine ⟨by omega, by simp, Or.inr ?_⟩
        have : st.vid - nv = st.src.length := by omega
        rw [this, List.getD_append_right st.src [e] (0, 0) st.src.length le_rfl]
        simp [hk2]
      · simp only [hk2, if_neg, ne_eq, not_false_iff] at hm
        by_cases hk1 : k = e
        · simp only [hk1, if_pos] at hm
          have hmv : m = st.vid := by
            have := hm; simp at this; omega
          subst hmv
          refine ⟨by omega, by simp, Or.inl ?_⟩
          have : st.vid - nv = st.src.length := by omega
          rw [this, List.getD_append_right st.src [e] (0, 0) st.src.length le_rfl]
          simp [hk1]
        · simp only [hk1, if_neg, ne_eq, not_false_iff] at hm
          obtain ⟨h1, h2, h3⟩ := hval k m hm
          have hlt : m - nv < st.src.length := by omega
          refine ⟨h1, by simp; omega, ?_⟩
          rw [List.getD_append st.src [e] (0, 0) (m - nv) hlt]
          exact h3
  · simpa [insE, he] using ⟨hvid, hinc, hval⟩

theorem foldl_insE_dsound {nv : Nat} (L : List DEdge) {st : BuildSt}
    (h : DSound nv st) : DSound nv (L.foldl insE st) := by
  induction L generalizing st with
  | nil => exact h
  | cons e es ih => exact ih (insE_dsound e h)

theorem buildSt_dsound (nv : Nat) (fs : List Face) : DSound nv (buildSt nv fs) := by
  refine foldl_insE_dsound _ ⟨by simp, by simp, ?_⟩
  intro k m hm
  simp at hm

theorem insE_dcomplete {nv : Nat} {st : BuildSt} (e : DEdge)
    (hs : DSound nv st) (h : DComplete nv st)
    (hfresh : e.1 < e.2 → e ∉ st.src) : DComplete nv (insE st e) := by
  obtain ⟨hvid, hinc, _⟩ := hs
  by_cases he : e.1 < e.2
  · simp only [insE, he, if_pos]
    intro i hi
    simp only [List.length_append, List.length_singleton] at hi
    by_cases hilt : i < st.src.length
    · rw [List.getD_append st.src [e] (0, 0) i hilt]
      obtain ⟨h1, h2⟩ := h i hilt
      have hmem : st.src.getD i (0, 0) ∈ st.src := by
        rw [List.getD_eq_getElem st.src (0, 0) hilt]
        exact List.getElem_mem hilt
      have hkinc : (st.src.getD i (0, 0)).1 < (st.src.getD i (0, 0)).2 := hinc _ hmem
      have hne1 : st.src.getD i (0, 0) ≠ swapE e := by
        intro hcontra
        rw [hcontra] at hkinc
        simp [swapE] at hkinc
        omega
      have hne2 : st.src.getD i (0, 0) ≠ e := by
        intro hcontra
        exact hfresh he (hcontra ▸ hmem)
      have hne3 : swapE (st.src.getD i (0, 0)) ≠ swapE e := by
        simpa [swapE_injEq] using hne2
      have hne4 : swapE (st.src.getD i (0, 0)) ≠ e := by
        intro hcontra
        have : st.src.getD i (0, 0) = swapE e := by
          rw [← hcontra, swapE_swapE]
        exact hne1 this
      constructor
      · simp only [insertD, hne1, hne2, if_neg, ne_eq, not_false_iff]
        exact h1
      · simp only [insertD, hne3, hne4, if_neg, ne_eq, not_false_iff]
        exact h2
    · have hieq : i = st.src.length := by omega
      subst hieq
      rw [List.getD_append_right st.src [e] (0, 0) st.src.length le_rfl]
      simp only [Nat.sub_self]
      have hgd : ([e] : List DEdge).getD 0 (0, 0) = e := rfl
      rw [hgd]
      have hee : e ≠ swapE e := by
        intro hcontra
        rcases e with ⟨a, b⟩
        have hab : a < b := he
        simp only [swapE, Prod.mk.injEq] at hcontra
        omega
      constructor
      · simp only [insertD, hee, if_neg, ne_eq, not_false_iff, if_pos]
        rw [hvid]
      · simp only [insertD, if_pos]
        rw [hvid]
  · simp only [insE, he, if_neg, not_false_iff]
    exact h

theorem foldl_insE_dcomplete {nv : Nat} (L : List DEdge) {st : BuildSt}
    (hs : DSound nv st) (h : DComplete nv st)
    (hnd : (st.src ++ L.filter (fun e => decide (e.1 < e.2))).Nodup) :
    DComplete nv (L.foldl insE st) := by
  induction L generalizing st with
  | nil => exact h
  | cons e es ih =>
    rw [List.foldl_cons]
    have hfilter : (e :: es).filter (fun e => decide (e.1 < e.2)) =
        (if e.1 < e.2 then [e] else []) ++ es.filter (fun e => decide (e.1 < e.2)) := by
      rw [List.filter_cons]
      by_cases he : e.1 < e.2 <;> simp [he]
    rw [hfilter] at hnd
    have hfresh : e.1 < e.2 → e ∉ st.src := by
      intro he hmem
      simp only [he, if_pos] at hnd
      have : e ∈ st.src ++ ([e] ++ es.filter (fun e => decide (e.1 < e.2))) := by
        simp
      rw [← List.append_assoc] at hnd
      have hnd' := List.Nodup.of_append_left hnd
      have : st.src.Disjoint [e] := by
        have := (List.nodup_append.mp hnd').2.2
        exact this
      exact this hmem (by simp)
    refine ih (insE_dsound e hs) (insE_dcomplete e hs h hfresh) ?_
    rw [insE_src]
    by_cases he : e.1 < e.2 <;> simp only [he, if_pos, if_neg, not_false_iff] at hnd ⊢
    · rw [List.append_assoc]
      exact hnd
    · simpa using hnd

theorem buildSt_dcomplete (nv : Nat) (fs : List Face)
    (hnd : (canonEdges fs).Nodup) : DComplete nv (buildSt nv fs) := by
  refine foldl_insE_dcomplete _ ⟨by simp, by simp, by intro k m hm; simp at hm⟩
    (by intro i hi; simp at hi) ?_
  simpa [canonEdges] using hnd

theorem insE_d_mono {st : BuildSt} {k : DEdge} (e : DEdge)
    (h : ((st.d k).isSome : Prop)) : (((insE st e).d k).isSome : Prop) := by
  by_cases he : e.1 < e.2
  · simp only [insE, he, if_pos, insertD]
    by_cases hk2 : k = swapE e
    · simp [hk2]
    · by_cases hk1 : k = e <;> simp [hk1, hk2, h]
  · simpa [insE, he] using h

theorem foldl_insE_d_mono (L : List DEdge) {st : BuildSt} {k : DEdge}
    (h : ((st.d k).isSome : Prop)) : (((L.foldl insE st).d k).isSome : Prop) := by
  induction L generalizing st with
  | nil => exact h
  | cons e es ih => exact ih (insE_d_mono e h)

theorem foldl_insE_d_canon (L : List DEdge) (st : BuildSt) :
    ∀ e ∈ L.filter (fun e => decide (e.1 < e.2)),
      (((L.foldl insE st).d e).isSome : Prop) ∧
      (((L.foldl insE st).d (swapE e)).isSome : Prop) := by
  induction L generalizing st with
  | nil => intro e he; simp at he
  | cons x xs ih =>
    intro e he
    rw [List.filter_cons] at he
    by_cases hx : x.1 < x.2
    · simp only [hx, decide_eq_true_eq, if_pos, List.mem_cons] at he
      rcases he with he | he
      · subst he
        have h1 : ((insE st e).d e).isSome := by
          simp only [insE, hx, if_pos, insertD]
          rw [ite_self]
          rfl
        have h2 : ((insE st e).d (swapE e)).isSome := by
          simp only [insE, hx, if_pos, insertD]
          rfl
        exact ⟨foldl_insE_d_mono xs h1, foldl_insE_d_mono xs h2⟩
      · exact ih (insE st x) e he
    · simp only [hx, decide_eq_true_eq, if_neg, not_false_iff] at he
      simp only [List.foldl_cons]
      have hins : insE st x = st := by simp [insE, hx]
      rw [hins]
      exact ih st e he

theorem buildSt_d_canon (nv : Nat) (fs : List Face) :
    ∀ e ∈ canonEdges fs,
      (((buildSt nv fs).d e).isSome : Prop) ∧
      (((buildSt nv fs).d (swapE e)).isSome : Prop) := by
  intro e he
  exact foldl_insE_d_canon _ _ e he

/-! ### Consequences for the finished dictionary -/

theorem buildSt_d_some {nv : Nat} {fs : List Face} {k : DEdge} {m : Nat}
    (h : (buildSt nv fs).d k = some m) :
    nv ≤ m ∧ m < nv + (canonEdges fs).length ∧
    (k = (canonEdges fs).getD (m - nv) (0, 0) ∨
      k = swapE ((canonEdges fs).getD (m - nv) (0, 0))) := by
  obtain ⟨hvid, _, hval⟩ := buildSt_dsound nv fs
  have hv := hval k m h
  rw [buildSt_src] at hv
  refine ⟨hv.1, ?_, hv.2.2⟩
  have h2 := hv.2.1
  rw [buildSt_vid] at h2
  exact h2

theorem buildSt_d_uedge {nv : Nat} {fs : List Face} {k k' : DEdge} {m : Nat}
    (h : (buildSt nv fs).d k = some m) (h' : (buildSt nv fs).d k' = some m) :
    uedge k = uedge k' := by
  obtain ⟨_, _, hk⟩ := buildSt_d_some h
  obtain ⟨_, _, hk'⟩ := buildSt_d_some h'
  rcases hk with hk | hk <;> rcases hk' with hk' | hk' <;>
    rw [hk, hk'] <;> simp [uedge_swapE]

theorem wind_count_le_one {fs : List Face} (h : Wind fs) (e : DEdge) :
    (allDedges fs).count e ≤ 1 := by
  by_cases he : e ∈ allDedges fs
  · exact (h e he).2.1.le
  · simp [List.count_eq_zero_of_not_mem he]

theorem nodup_of_count_le_one {l : List DEdge} (h : ∀ a, l.count a ≤ 1) :
    l.Nodup := by
  induction l with
  | nil => exact List.nodup_nil
  | cons x xs ih =>
    rw [List.nodup_cons]
    constructor
    · intro hmem
      have hx := h x
      have hpos : 0 < xs.count x := List.count_pos_iff.mpr hmem
      rw [List.count_cons] at hx
      simp at hx
      omega
    · refine ih (fun a => ?_)
      have ha := h a
      rw [List.count_cons] at ha
      omega

theorem canonEdges_nodup {fs : List Face} (h : Wind fs) : (canonEdges fs).Nodup := by
  refine nodup_of_count_le_one (fun e => ?_)
  exact le_trans ((List.filter_sublist _).count_le e) (wind_count_le_one h e)

theorem buildSt_total_orient {nv : Nat} {fs : List Face} (h : Orient fs) :
    ∀ e ∈ allDedges fs, (((buildSt nv fs).d e).isSome : Prop) := by
  intro e he
  obtain ⟨hne, hswap⟩ := h e he
  rcases Nat.lt_or_ge e.1 e.2 with hlt | hge
  · have hmem : e ∈ canonEdges fs := List.mem_filter.mpr ⟨he, by simpa using hlt⟩
    exact (buildSt_d_canon nv fs e hmem).1
  · have hlt' : (swapE e).1 < (swapE e).2 := by
      rcases e with ⟨a, b⟩
      simp only [swapE]
      have : a ≠ b := hne
      omega
    have hmem : swapE e ∈ canonEdges fs :=
      List.mem_filter.mpr ⟨hswap, by simpa using hlt'⟩
    have h2 := (buildSt_d_canon nv fs (swapE e) hmem).2
    rwa [swapE_swapE] at h2

theorem midF_swapE (nv : Nat) (fs : List Face) (e : DEdge) :
    midF nv fs (swapE e) = midF nv fs e := by
  unfold midF
  rw [buildSt_d_symm]

theorem midF_spec {nv : Nat} {fs : List Face} {e : DEdge}
    (h : (((buildSt nv fs).d e).isSome : Prop)) :
    (buildSt nv fs).d e = some (midF nv fs e) := by
  unfold midF
  obtain ⟨m, hm⟩ := Option.isSome_iff_exists.mp h
  rw [hm]
  rfl

theorem midF_ge {nv : Nat} {fs : List Face} {e : DEdge}
    (h : (((buildSt nv fs).d e).isSome : Prop)) : nv ≤ midF nv fs e :=
  (buildSt_d_some (midF_spec h)).1

theorem midF_lt {nv : Nat} {fs : List Face} {e : DEdge}
    (h : (((buildSt nv fs).d e).isSome : Prop)) :
    midF nv fs e < nv + (canonEdges fs).length :=
  (buildSt_d_some (midF_spec h)).2.1

theorem midF_inj {nv : Nat} {fs : List Face} {e e' : DEdge}
    (h : (((buildSt nv fs).d e).isSome : Prop))
    (h' : (((buildSt nv fs).d e').isSome : Prop))
    (heq : midF nv fs e = midF nv fs e') : uedge e = uedge e' :=
  buildSt_d_uedge (midF_spec h) (heq ▸ midF_spec h')

/-! ### The rebuilding loop -/

theorem rebuild_cons_inv {d : DEdge → Option Nat} {t : Face} {ts : List Face}
    {l : List Face} (h : rebuild d (t :: ts) = some l) :
    ∃ m01 m12 m20 rest, d (t.1, t.2.1) = some m01 ∧ d (t.2.1, t.2.2) = some m12 ∧
      d (t.2.2, t.1) = some m20 ∧ rebuild d ts = some rest ∧
      l = (t.1, m01, m20) :: (t.2.1, m12, m01) :: (t.2.2, m20, m12) ::
        (m01, m12, m20) :: rest := by
  cases h01 : d (t.1, t.2.1) with
  | none => rw [rebuild, h01] at h; simp at h
  | some m01 =>
    cases h12 : d (t.2.1, t.2.2) with
    | none => rw [rebuild, h01, h12] at h; simp at h
    | some m12 =>
      cases h20 : d (t.2.2, t.1) with
      | none => rw [rebuild, h01, h12, h20] at h; simp at h
      | some m20 =>
        cases hrest : rebuild d ts with
        | none => rw [rebuild, h01, h12, h20, hrest] at h; simp at h
        | some rest =>
          rw [rebuild, h01, h12, h20, hrest] at h
          exact ⟨m01, m12, m20, rest, rfl, rfl, rfl, rfl, (Option.some.inj h).symm⟩

theorem rebuild_isSome {d : DEdge → Option Nat} {fs : List Face}
    (h : ∀ e ∈ allDedges fs, ((d e).isSome : Prop)) :
    ∃ l, rebuild d fs = some l := by
  induction fs with
  | nil => exact ⟨[], rfl⟩
  | cons t ts ih =>
    have hsub : dedges t ⊆ allDedges (t :: ts) := dedges_subset_allDedges (by simp)
    obtain ⟨m01, hm01⟩ := Option.isSome_iff_exists.mp
      (h (t.1, t.2.1) (hsub (by simp [dedges])))
    obtain ⟨m12, hm12⟩ := Option.isSome_iff_exists.mp
      (h (t.2.1, t.2.2) (hsub (by simp [dedges])))
    obtain ⟨m20, hm20⟩ := Option.isSome_iff_exists.mp
      (h (t.2.2, t.1) (hsub (by simp [dedges])))
    obtain ⟨rest, hrest⟩ := ih (fun e he => h e (by
      rw [show allDedges (t :: ts) = dedges t ++ allDedges ts from rfl]
      exact List.mem_append_right _ he))
    exact ⟨_, by rw [rebuild, hm01, hm12, hm20, hrest]; rfl⟩

theorem rebuild_length {d : DEdge → Option Nat} {fs : List Face} {l : List Face}
    (h : rebuild d fs = some l) : l.length = 4 * fs.length := by
  induction fs generalizing l with
  | nil =>
    rw [rebuild] at h
    simp only [Option.some.injEq] at h
    rw [← h]
    rfl
  | cons t ts ih =>
    obtain ⟨m01, m12, m20, rest, _, _, _, hrest, hl⟩ := rebuild_cons_inv h
    subst hl
    simp only [List.length_cons, ih hrest]
    ring

theorem rebuild_eq_catChildren {d : DEdge → Option Nat} {fs : List Face}
    {l : List Face} (h : rebuild d fs = some l) :
    l = catChildren (fun e => (d e).getD 0) fs := by
  induction fs generalizing l with
  | nil =>
    rw [rebuild] at h
    simp only [Option.some.injEq] at h
    rw [← h]
    rfl
  | cons t ts ih =>
    obtain ⟨m01, m12, m20, rest, h01, h12, h20, hrest, hl⟩ := rebuild_cons_inv h
    subst hl
    show _ = child4 _ t ++ catChildren _ ts
    rw [← ih hrest]
    simp [child4, h01, h12, h20]

/-! ### One subdivision step under consistent orientation -/

theorem canonEdges_ne_nil {fs : List Face} (h : Orient fs) (hne : fs ≠ []) :
    canonEdges fs ≠ [] := by
  rcases fs with _ | ⟨t, ts⟩
  · exact absurd rfl hne
  · have he : (t.1, t.2.1) ∈ allDedges (t :: ts) := by
      apply dedges_subset_allDedges (List.mem_cons_self t ts)
      simp [dedges]
    obtain ⟨hne12, hswap⟩ := h _ he
    intro hcontra
    rcases Nat.lt_or_ge t.1 t.2.1 with hlt | hge
    · have : (t.1, t.2.1) ∈ canonEdges (t :: ts) :=
        List.mem_filter.mpr ⟨he, by simpa using hlt⟩
      rw [hcontra] at this
      simp at this
    · have hlt' : t.2.1 < t.1 := by
        have : t.1 ≠ t.2.1 := hne12
        omega
      have : swapE (t.1, t.2.1) ∈ canonEdges (t :: ts) :=
        List.mem_filter.mpr ⟨hswap, by simpa [swapE] using hlt'⟩
      rw [hcontra] at this
      simp at this

theorem stepF_some {nv : Nat} {fs : List Face} (ho : Orient fs) (hne : fs ≠ []) :
    ∃ f2, stepF nv fs = some (nv + (canonEdges fs).length, f2) ∧
      rebuild (buildSt nv fs).d fs = some f2 := by
  obtain ⟨f2, hf2⟩ := rebuild_isSome (buildSt_total_orient ho)
  refine ⟨f2, ?_, hf2⟩
  have hsrc : (buildSt nv fs).src.isEmpty = false := by
    rw [buildSt_src]
    cases hc : canonEdges fs with
    | nil => exact absurd hc (canonEdges_ne_nil ho hne)
    | cons a l => rfl
  simp [stepF, hsrc, hf2, buildSt_vid]

/-! ### Child edges -/

theorem allDedges_child4 (mid : DEdge → Nat) (t : Face) :
    allDedges (child4 mid t) =
      [(t.1, mid (t.1, t.2.1)), (mid (t.1, t.2.1), mid (t.2.2, t.1)),
       (mid (t.2.2, t.1), t.1),
       (t.2.1, mid (t.2.1, t.2.2)), (mid (t.2.1, t.2.2), mid (t.1, t.2.1)),
       (mid (t.1, t.2.1), t.2.1),
       (t.2.2, mid (t.2.2, t.1)), (mid (t.2.2, t.1), mid (t.2.1, t.2.2)),
       (mid (t.2.1, t.2.2), t.2.2),
       (mid (t.1, t.2.1), mid (t.2.1, t.2.2)), (mid (t.2.1, t.2.2), mid (t.2.2, t.1)),
       (mid (t.2.2, t.1), mid (t.1, t.2.1))] := rfl

theorem mem_catChildren {mid : DEdge → Nat} {fs : List Face} {t' : Face} :
    t' ∈ catChildren mid fs ↔ ∃ t ∈ fs, t' ∈ child4 mid t := by
  induction fs with
  | nil => simp [catChildren]
  | cons t ts ih =>
    simp only [catChildren, List.mem_append, ih, List.mem_cons]
    constructor
    · rintro (h | ⟨u, hu, hc⟩)
      · exact ⟨t, Or.inl rfl, h⟩
      · exact ⟨u, Or.inr hu, hc⟩
    · rintro ⟨u, hu | hu, hc⟩
      · subst hu; exact Or.inl hc
      · exact Or.inr ⟨u, hu, hc⟩

theorem mem_allDedges_catChildren {mid : DEdge → Nat} {fs : List Face} {E : DEdge} :
    E ∈ allDedges (catChildren mid fs) ↔
      ∃ t ∈ fs, E ∈ allDedges (child4 mid t) := by
  induction fs with
  | nil => simp [catChildren, allDedges]
  | cons t ts ih =>
    show E ∈ allDedges (child4 mid t ++ catChildren mid ts) ↔ _
    rw [allDedges_append]
    simp only [List.mem_append, ih, List.mem_cons]
    constructor
    · rintro (h | ⟨u, hu, hc⟩)
      · exact ⟨t, Or.inl rfl, h⟩
      · exact ⟨u, Or.inr hu, hc⟩
    · rintro ⟨u, hu | hu, hc⟩
      · subst hu; exact Or.inl hc
      · exact Or.inr ⟨u, hu, hc⟩

theorem uedge_eq_iff {e e' : DEdge} : uedge e = uedge e' ↔ (e = e' ∨ e = swapE e') := by
  rcases e with ⟨a, b⟩
  rcases e' with ⟨c, d⟩
  simp only [uedge, swapE]
  split_ifs <;> simp only [Prod.mk.injEq] <;> omega

theorem mem_child4_half {mid : DEdge → Nat} {t : Face} {e : DEdge}
    (he : e ∈ dedges t) :
    (e.1, mid e) ∈ allDedges (child4 mid t) ∧
    (mid e, e.2) ∈ allDedges (child4 mid t) := by
  rw [allDedges_child4]
  rcases t with ⟨a, b, c⟩
  simp only [dedges, List.mem_cons, List.not_mem_nil, or_false] at he
  rcases he with he | he | he <;> subst he <;> simp

theorem half_mem {nv : Nat} {fs : List Face} {e : DEdge} (he : e ∈ allDedges fs) :
    (e.1, midF nv fs e) ∈ allDedges (catChildren (midF nv fs) fs) ∧
    (midF nv fs e, e.2) ∈ allDedges (catChildren (midF nv fs) fs) := by
  obtain ⟨t, ht, het⟩ := mem_allDedges.mp he
  exact ⟨mem_allDedges_catChildren.mpr ⟨t, ht, (mem_child4_half het).1⟩,
    mem_allDedges_catChildren.mpr ⟨t, ht, (mem_child4_half het).2⟩⟩

/-! ### One subdivision step preserves consistent orientation -/

theorem step_orient {nv : Nat} {fs : List Face} (ho : Orient fs) (hok : okF nv fs) :
    Orient (catChildren (midF nv fs) fs) := by
  intro E hE
  obtain ⟨t, ht, hEt⟩ := mem_allDedges_catChildren.mp hE
  have htot := @buildSt_total_orient nv _ ho
  have hsub : dedges t ⊆ allDedges fs := dedges_subset_allDedges ht
  have h1 : (t.1, t.2.1) ∈ allDedges fs := hsub (by simp [dedges])
  have h2 : (t.2.1, t.2.2) ∈ allDedges fs := hsub (by simp [dedges])
  have h3 : (t.2.2, t.1) ∈ allDedges fs := hsub (by simp [dedges])
  have d1 : t.1 ≠ t.2.1 := (ho _ h1).1
  have d2 : t.2.1 ≠ t.2.2 := (ho _ h2).1
  have d3 : t.2.2 ≠ t.1 := (ho _ h3).1
  obtain ⟨b1, b2, b3⟩ := hok t ht
  have g1 : nv ≤ midF nv fs (t.1, t.2.1) := midF_ge (htot _ h1)
  have g2 : nv ≤ midF nv fs (t.2.1, t.2.2) := midF_ge (htot _ h2)
  have g3 : nv ≤ midF nv fs (t.2.2, t.1) := midF_ge (htot _ h3)
  have m12 : midF nv fs (t.1, t.2.1) ≠ midF nv fs (t.2.1, t.2.2) := by
    intro hc
    rcases uedge_eq_iff.mp (midF_inj (htot _ h1) (htot _ h2) hc) with h | h <;>
      · simp only [swapE, Prod.mk.injEq] at h
        omega
  have m23 : midF nv fs (t.2.1, t.2.2) ≠ midF nv fs (t.2.2, t.1) := by
    intro hc
    rcases uedge_eq_iff.mp (midF_inj (htot _ h2) (htot _ h3) hc) with h | h <;>
      · simp only [swapE, Prod.mk.injEq] at h
        omega
  have m31 : midF nv fs (t.2.2, t.1) ≠ midF nv fs (t.1, t.2.1) := by
    intro hc
    rcases uedge_eq_iff.mp (midF_inj (htot _ h3) (htot _ h1) hc) with h | h <;>
      · simp only [swapE, Prod.mk.injEq] at h
        omega
  have r1 : swapE (t.1, t.2.1) ∈ allDedges fs := (ho _ h1).2
  have r2 : swapE (t.2.1, t.2.2) ∈ allDedges fs := (ho _ h2).2
  have r3 : swapE (t.2.2, t.1) ∈ allDedges fs := (ho _ h3).2
  rw [allDedges_child4] at hEt
  simp only [List.mem_cons, List.not_mem_nil, or_false] at hEt
  rcases hEt with hEt | hEt | hEt | hEt | hEt | hEt | hEt | hEt | hEt | hEt | hEt | hEt <;>
    subst hEt <;> refine ⟨?_, ?_⟩
  · exact fun hc => by simp only [Prod.mk.injEq] at hc; omega
  · have hh := (@half_mem nv _ _ r1).2
    rw [midF_swapE] at hh
    exact hh
  · exact fun hc => m31 (by simpa using hc.symm)
  · exact mem_allDedges_catChildren.mpr ⟨t, ht, by rw [allDedges_child4]; simp [swapE]⟩
  · exact fun hc => by simp only [Prod.mk.injEq] at hc; omega
  · have hh := (@half_mem nv _ _ r3).1
    rw [midF_swapE] at hh
    exact hh
  · exact fun hc => by simp only [Prod.mk.injEq] at hc; omega
  · have hh := (@half_mem nv _ _ r2).2
    rw [midF_swapE] at hh
    exact hh
  · exact fun hc => m12 (by simpa using hc.symm)
  · exact mem_allDedges_catChildren.mpr ⟨t, ht, by rw [allDedges_child4]; simp [swapE]⟩
  · exact fun hc => by simp only [Prod.mk.injEq] at hc; omega
  · have hh := (@half_mem nv _ _ r1).1
    rw [midF_swapE] at hh
    exact hh
  · exact fun hc => by simp only [Prod.mk.injEq] at hc; omega
  · have hh := (@half_mem nv _ _ r3).2
    rw [midF_swapE] at hh
    exact hh
  · exact fun hc => m23 (by simpa using hc.symm)
  · exact mem_allDedges_catChildren.mpr ⟨t, ht, by rw [allDedges_child4]; simp [swapE]⟩
  · exact fun hc => by simp only [Prod.mk.injEq] at hc; omega
  · have hh := (@half_mem nv _ _ r2).1
    rw [midF_swapE] at hh
    exact hh
  · exact fun hc => m12 hc
  · exact mem_allDedges_catChildren.mpr ⟨t, ht, by rw [allDedges_child4]; simp [swapE]⟩
  · exact fun hc => m23 hc
  · exact mem_allDedges_catChildren.mpr ⟨t, ht, by rw [allDedges_child4]; simp [swapE]⟩
  · exact fun hc => m31 hc
  · exact mem_allDedges_catChildren.mpr ⟨t, ht, by rw [allDedges_child4]; simp [swapE]⟩

theorem step_okF {nv : Nat} {fs : List Face} (ho : Orient fs) (hok : okF nv fs) :
    okF (nv + (canonEdges fs).length) (catChildren (midF nv fs) fs) := by
  intro t' ht'
  obtain ⟨t, ht, h4⟩ := mem_catChildren.mp ht'
  have htot := @buildSt_total_orient nv _ ho
  have hsub : dedges t ⊆ allDedges fs := dedges_subset_allDedges ht
  obtain ⟨b1, b2, b3⟩ := hok t ht
  rcases t with ⟨a, b, c⟩
  have h1 : ((a, b) : DEdge) ∈ allDedges fs := hsub (by simp [dedges])
  have h2 : ((b, c) : DEdge) ∈ allDedges fs := hsub (by simp [dedges])
  have h3 : ((c, a) : DEdge) ∈ allDedges fs := hsub (by simp [dedges])
  have l1 : midF nv fs (a, b) < nv + (canonEdges fs).length := midF_lt (htot _ h1)
  have l2 : midF nv fs (b, c) < nv + (canonEdges fs).length := midF_lt (htot _ h2)
  have l3 : midF nv fs (c, a) < nv + (canonEdges fs).length := midF_lt (htot _ h3)
  simp only [child4, List.mem_cons, List.not_mem_nil, or_false] at h4
  rcases h4 with h4 | h4 | h4 | h4 <;> subst h4 <;>
    exact ⟨by simp at b1 b2 b3 ⊢; omega, by simp at b1 b2 b3 ⊢; omega,
      by simp at b1 b2 b3 ⊢; omega⟩

theorem stepF_orient_ind {nv : Nat} {fs : List Face} (ho : Orient fs)
    (hok : okF nv fs) (hne : fs ≠ []) :
    ∃ f2, stepF nv fs = some (nv + (canonEdges fs).length, f2) ∧
      f2.length = 4 * fs.length ∧ Orient f2 ∧
      okF (nv + (canonEdges fs).length) f2 ∧ f2 ≠ [] := by
  obtain ⟨f2, hstep, hreb⟩ := stepF_some ho hne
  have hcat : f2 = catChildren (midF nv fs) fs := rebuild_eq_catChildren hreb
  refine ⟨f2, hstep, rebuild_length hreb, ?_, ?_, ?_⟩
  · rw [hcat]; exact step_orient ho hok
  · rw [hcat]; exact step_okF ho hok
  · have hlen := rebuild_length hreb
    intro hc
    rw [hc] at hlen
    simp at hlen
    rcases fs with _ | ⟨t, ts⟩
    · exact hne rfl
    · simp at hlen

theorem stepF_some_inv {nv : Nat} {fs : List Face} {p : Nat × List Face}
    (h : stepF nv fs = some p) :
    rebuild (buildSt nv fs).d fs = some p.2 ∧ p.1 = (buildSt nv fs).vid := by
  unfold stepF at h
  by_cases hsrc : (buildSt nv fs).src.isEmpty = true
  · simp [hsrc] at h
  · simp only [hsrc, if_neg, Bool.false_eq_true, not_false_iff] at h
    cases hreb : rebuild (buildSt nv fs).d fs with
    | none => rw [hreb] at h; simp at h
    | some f2 =>
      rw [hreb] at h
      simp only [Option.map_some', Option.some.injEq] at h
      rw [← h]
      exact ⟨rfl, rfl⟩

theorem wind_orient {fs : List Face} (h : Wind fs) : Orient fs := by
  intro e he
  refine ⟨(h e he).1, ?_⟩
  have hc := (h e he).2.2
  have : 0 < (allDedges fs).count (swapE e) := by omega
  exact List.count_pos_iff.mp this

theorem tessF_orient (k : Nat) : ∀ nv fs, Orient fs → okF nv fs → fs ≠ [] →
    ∃ nv' fs', tessF k nv fs = some (nv', fs') ∧
      fs'.length = fs.length * 4 ^ k ∧ Orient fs' ∧ okF nv' fs' ∧ fs' ≠ [] := by
  induction k with
  | zero =>
    intro nv fs ho hok hne
    exact ⟨nv, fs, rfl, by simp, ho, hok, hne⟩
  | succ k ih =>
    intro nv fs ho hok hne
    obtain ⟨f2, hstep, hlen, ho2, hok2, hne2⟩ := stepF_orient_ind ho hok hne
    obtain ⟨nv', fs', htess, hlen', ho', hok', hne'⟩ := ih _ f2 ho2 hok2 hne2
    refine ⟨nv', fs', ?_, ?_, ho', hok', hne'⟩
    · rw [tessF, hstep]
      exact htess
    · rw [hlen', hlen]
      ring

/-! ### Correspondence between the vertex-level and face-level models -/

theorem stepV_stepF (vs : List V3) (fs : List Face) :
    (stepV vs fs).map (fun m => (m.1.length, m.2)) = stepF vs.length fs := by
  unfold stepV stepF
  by_cases hsrc : (buildSt vs.length fs).src.isEmpty = true
  · simp [hsrc]
  · simp only [hsrc, if_neg, Bool.false_eq_true, not_false_iff]
    cases hreb : rebuild (buildSt vs.length fs).d fs with
    | none => simp
    | some f2 =>
      simp only [Option.map_some', Option.some.injEq, Prod.mk.injEq]
      refine ⟨?_, trivial⟩
      rw [List.length_append, List.length_map, buildSt_src, buildSt_vid]

theorem tessV_tessF (k : Nat) : ∀ m : List V3 × List Face,
    (tessV k m).map (fun m' => (m'.1.length, m'.2)) = tessF k m.1.length m.2 := by
  induction k with
  | zero => intro m; rfl
  | succ k ih =>
    intro m
    rw [tessV, tessF]
    cases hs : stepV m.1 m.2 with
    | none =>
      have hF := stepV_stepF m.1 m.2
      rw [hs] at hF
      simp only [Option.map_none'] at hF
      rw [← hF]
      simp
    | some m2 =>
      have hF := stepV_stepF m.1 m.2
      rw [hs] at hF
      simp only [Option.map_some'] at hF
      rw [← hF]
      simp only [Option.some_bind, Option.bind_some]
      exact ih m2

theorem icoV_length : icoV.length = 12 := by
  simp [icoV, icoVraw, icoCyl]

/-! ## Claim theorems -/

/-- Claim C1, counterexample: the misoriented tetrahedron is a triangular mesh
of 4 faces forming a closed manifold (every undirected edge lies in exactly two
faces, with valid indices), yet `tessellate` with one iteration fails with a
`KeyError` (modelled by `none`) instead of producing a mesh of 4 * 4^1 faces. -/
theorem tessellate_closedManifold_cex :
    ClosedManifold misTetra ∧ misTetra.length = 4 ∧ okF 4 misTetra ∧
    tessF 1 4 misTetra = none ∧
    ¬∃ nv' fs', tessF 1 4 misTetra = some (nv', fs') ∧
      fs'.length = misTetra.length * 4 ^ 1 := by
  refine ⟨by decide, rfl, by decide, by decide, ?_⟩
  rintro ⟨nv', fs', h, _⟩
  rw [show tessF 1 4 misTetra = none from by decide] at h
  simp at h

/-- Claim C1 (amended): for every nonempty triangular mesh whose faces are
consistently wound (every undirected edge lies in exactly two faces which
traverse it in opposite directions) with valid vertex indices, `tessellate`
with `k` iterations succeeds and produces exactly `F0 * 4^k` faces; in
particular `GeodesicDome().tessellate(3)` yields exactly `20 * 4^3 = 1280`
faces. -/
theorem tessellate_face_count :
    (∀ nv fs k, Wind fs → okF nv fs → fs ≠ [] →
      ∃ nv' fs', tessF k nv fs = some (nv', fs') ∧
        fs'.length = fs.length * 4 ^ k) ∧
    (∃ vs' fs', tessellate 3 = some (vs', fs') ∧ fs'.length = 1280) := by
  have hgen : ∀ nv fs k, Wind fs → okF nv fs → fs ≠ [] →
      ∃ nv' fs', tessF k nv fs = some (nv', fs') ∧
        fs'.length = fs.length * 4 ^ k := by
    intro nv fs k hw hok hne
    obtain ⟨nv', fs', h1, h2, _⟩ := tessF_orient k nv fs (wind_orient hw) hok hne
    exact ⟨nv', fs', h1, h2⟩
  refine ⟨hgen, ?_⟩
  obtain ⟨nv', fs', h1, h2⟩ :=
    hgen 12 icoF 3 (by decide) (by decide) (by decide)
  have hcorr := tessV_tessF 3 (icoV, icoF)
  rw [show ((icoV, icoF) : List V3 × List Face).1.length = 12 from icoV_length] at hcorr
  rw [h1] at hcorr
  obtain ⟨m, hm, hm2⟩ := Option.map_eq_some'.mp hcorr
  refine ⟨m.1.map snap3, m.2, ?_, ?_⟩
  · rw [tessellate, hm]
    rfl
  · have : m.2 = fs' := congrArg Prod.snd hm2
    rw [this, h2]
    rfl

/-- Claim C7: whenever one subdivision iteration succeeds, the new face list
is exactly the concatenation, over the original triangles `(a, b, c)`, of the
four child triangles `(a, mid(a,b), mid(c,a))`, `(b, mid(b,c), mid(a,b))`,
`(c, mid(c,a), mid(b,c))` and `(mid(a,b), mid(b,c), mid(c,a))`, in this order
and winding, for a midpoint assignment `mid` that is symmetric in its two
endpoints (see `child4` and `catChildren`). -/
theorem tessellate_child_pattern (nv : Nat) (fs : List Face)
    (h : ((stepF nv fs).isSome : Prop)) :
    ∃ mid nv', (∀ i j, mid (i, j) = mid (j, i)) ∧
      stepF nv fs = some (nv', catChildren mid fs) := by
  obtain ⟨p, hp⟩ := Option.isSome_iff_exists.mp h
  obtain ⟨hreb, hfst⟩ := stepF_some_inv hp
  refine ⟨midF nv fs, p.1, ?_, ?_⟩
  · intro i j
    have := midF_swapE nv fs (j, i)
    simpa [swapE] using this
  · have h2 : p.2 = catChildren (midF nv fs) fs := rebuild_eq_catChildren hreb
    rw [hp, ← h2]

/-- Witness for C7 at a concrete input: one subdivision step of the
tetrahedron succeeds and has the stated child-face pattern. -/
theorem tessellate_child_pattern_witness :
    ∃ mid nv', (∀ i j, mid (i, j) = mid (j, i)) ∧
      stepF 4 tetra = some (nv', catChildren mid tetra) :=
  tessellate_child_pattern 4 tetra (by decide)

/-! ### Counting machinery for the winding invariant -/

theorem sum_indicator_eq_count_edge {P : DEdge → Prop} [DecidablePred P]
    {e0 : DEdge} (h0 : P e0) :
    ∀ {L : List DEdge}, (∀ e ∈ L, P e → e = e0) →
      (L.map (fun e => if P e then 1 else 0)).sum = L.count e0 := by
  intro L
  induction L with
  | nil => intro _; rfl
  | cons x xs ih =>
    intro huniq
    have hxs := ih (fun e he hp => huniq e (List.mem_cons_of_mem x he) hp)
    rw [List.map_cons, List.sum_cons, hxs, List.count_cons]
    by_cases hbeq : (x == e0) = true
    · have hxe : x = e0 := beq_iff_eq.mp hbeq
      have hpx : P x := by rw [hxe]; exact h0
      rw [if_pos hpx, if_pos hbeq]
      omega
    · have hxne : x ≠ e0 := fun hc => hbeq (beq_iff_eq.mpr hc)
      have hnp : ¬P x := fun hp => hxne (huniq x (List.mem_cons_self x xs) hp)
      rw [if_neg hnp, if_neg hbeq]
      omega

theorem sum_indicator_eq_count_face {P : Face → Prop} [DecidablePred P]
    {t0 : Face} (h0 : P t0) :
    ∀ {L : List Face}, (∀ t ∈ L, P t → t = t0) →
      (L.map (fun t => if P t then 1 else 0)).sum = L.count t0 := by
  intro L
  induction L with
  | nil => intro _; rfl
  | cons x xs ih =>
    intro huniq
    have hxs := ih (fun t ht hp => huniq t (List.mem_cons_of_mem x ht) hp)
    rw [List.map_cons, List.sum_cons, hxs, List.count_cons]
    by_cases hbeq : (x == t0) = true
    · have hxe : x = t0 := beq_iff_eq.mp hbeq
      have hpx : P x := by rw [hxe]; exact h0
      rw [if_pos hpx, if_pos hbeq]
      omega
    · have hxne : x ≠ t0 := fun hc => hbeq (beq_iff_eq.mpr hc)
      have hnp : ¬P x := fun hp => hxne (huniq x (List.mem_cons_self x xs) hp)
      rw [if_neg hnp, if_neg hbeq]
      omega

theorem count_eq_one_edge : ∀ {l : List DEdge} {e : DEdge}, l.Nodup → e ∈ l →
    l.count e = 1 := by
  intro l
  induction l with
  | nil => intro e _ h; simp at h
  | cons x xs ih =>
    intro e hnd hmem
    rw [List.count_cons]
    have hx : x ∉ xs := (List.nodup_cons.mp hnd).1
    rcases List.mem_cons.mp hmem with rfl | hm
    · rw [if_pos (beq_iff_eq.mpr rfl), List.count_eq_zero_of_not_mem hx]
    · have hne : ¬(x == e) = true := by
        intro hb
        exact hx (beq_iff_eq.mp hb ▸ hm)
      rw [if_neg hne, ih (List.nodup_cons.mp hnd).2 hm]

theorem sum_zero_of_all_zero {α : Type} {L : List α} {f : α → Nat}
    (h : ∀ e ∈ L, f e = 0) : (L.map f).sum = 0 := by
  induction L with
  | nil => rfl
  | cons x xs ih =>
    rw [List.map_cons, List.sum_cons, h x (List.mem_cons_self x xs),
      ih (fun e he => h e (List.mem_cons_of_mem x he))]

theorem count_catChildren (mid : DEdge → Nat) (fs : List Face) (E : DEdge) :
    (allDedges (catChildren mid fs)).count E =
      (fs.map (fun t => (allDedges (child4 mid t)).count E)).sum := by
  induction fs with
  | nil => rfl
  | cons t ts ih =>
    show (allDedges (child4 mid t ++ catChildren mid ts)).count E = _
    rw [allDedges_append, List.count_append, ih, List.map_cons, List.sum_cons]

theorem count_child4_split (mid : DEdge → Nat) (t : Face) (E : DEdge) :
    (allDedges (child4 mid t)).count E =
      ((dedges t).map (fun e => (splitE mid e).count E)).sum +
        (inners mid t).count E := by
  rw [allDedges_child4]
  simp only [dedges, splitE, inners, List.map_cons, List.map_nil, List.sum_cons,
    List.sum_nil, List.count_cons, List.count_nil]
  omega

theorem count_split_sum (mid : DEdge → Nat) (fs : List Face) (E : DEdge) :
    (fs.map (fun t => ((dedges t).map (fun e => (splitE mid e).count E)).sum)).sum =
      ((allDedges fs).map (fun e => (splitE mid e).count E)).sum := by
  induction fs with
  | nil => rfl
  | cons t ts ih =>
    show _ = ((dedges t ++ allDedges ts).map _).sum
    rw [List.map_append, List.sum_append, List.map_cons, List.sum_cons, ih]

theorem sum_map_add_pair {α : Type} (l : List α) (f g : α → Nat) :
    (l.map (fun x => f x + g x)).sum = (l.map f).sum + (l.map g).sum := by
  induction l with
  | nil => rfl
  | cons x xs ih =>
    simp only [List.map_cons, List.sum_cons, ih]
    omega

theorem count_cat_decomp (mid : DEdge → Nat) (fs : List Face) (E : DEdge) :
    (allDedges (catChildren mid fs)).count E =
      ((allDedges fs).map (fun e => (splitE mid e).count E)).sum +
        (fs.map (fun t => (inners mid t).count E)).sum := by
  rw [count_catChildren]
  have hcongr : (fs.map (fun t => (allDedges (child4 mid t)).count E)) =
      (fs.map (fun t => ((dedges t).map (fun e => (splitE mid e).count E)).sum +
        (inners mid t).count E)) := by
    apply List.map_congr_left
    intro t _
    exact count_child4_split mid t E
  rw [hcongr, sum_map_add_pair, count_split_sum]

/-! ### Per-face facts under the winding invariant -/

theorem face_distinct {fs : List Face} {t : Face} (hw : Wind fs) (ht : t ∈ fs) :
    t.1 ≠ t.2.1 ∧ t.2.1 ≠ t.2.2 ∧ t.2.2 ≠ t.1 := by
  have hsub := dedges_subset_allDedges ht
  have h1 : (t.1, t.2.1) ∈ allDedges fs := hsub (by simp [dedges])
  have h2 : (t.2.1, t.2.2) ∈ allDedges fs := hsub (by simp [dedges])
  have h3 : (t.2.2, t.1) ∈ allDedges fs := hsub (by simp [dedges])
  exact ⟨(hw _ h1).1, (hw _ h2).1, (hw _ h3).1⟩

theorem edge_bounds {nv : Nat} {fs : List Face} {e : DEdge} (hok : okF nv fs)
    (he : e ∈ allDedges fs) : e.1 < nv ∧ e.2 < nv := by
  obtain ⟨t, ht, het⟩ := mem_allDedges.mp he
  obtain ⟨b1, b2, b3⟩ := hok t ht
  rcases t with ⟨a, b, c⟩
  simp only [dedges, List.mem_cons, List.not_mem_nil, or_false] at het
  rcases het with rfl | rfl | rfl
  · exact ⟨b1, b2⟩
  · exact ⟨b2, b3⟩
  · exact ⟨b3, b1⟩

theorem uedge_endpoints {e e' : DEdge} (h : uedge e = uedge e') :
    (e.1 = e'.1 ∧ e.2 = e'.2) ∨ (e.1 = e'.2 ∧ e.2 = e'.1) := by
  rcases uedge_eq_iff.mp h with h | h
  · exact Or.inl ⟨congrArg Prod.fst h, congrArg Prod.snd h⟩
  · exact Or.inr ⟨congrArg Prod.fst h, congrArg Prod.snd h⟩

theorem mem_vlist_fst {t : Face} {e : DEdge} (he : e ∈ dedges t) : e.1 ∈ vlist t := by
  rcases t with ⟨a, b, c⟩
  simp only [dedges, List.mem_cons, List.not_mem_nil, or_false] at he
  rcases he with rfl | rfl | rfl <;> simp [vlist]

theorem mem_vlist_snd {t : Face} {e : DEdge} (he : e ∈ dedges t) : e.2 ∈ vlist t := by
  rcases t with ⟨a, b, c⟩
  simp only [dedges, List.mem_cons, List.not_mem_nil, or_false] at he
  rcases he with rfl | rfl | rfl <;> simp [vlist]

theorem vlist_cover {t : Face} {f1 f2 : DEdge} (h1 : f1 ∈ dedges t)
    (h2 : f2 ∈ dedges t) (hne : uedge f1 ≠ uedge f2) :
    ∀ v ∈ vlist t, v = f1.1 ∨ v = f1.2 ∨ v = f2.1 ∨ v = f2.2 := by
  rcases t with ⟨a, b, c⟩
  simp only [dedges, List.mem_cons, List.not_mem_nil, or_false] at h1 h2
  rcases h1 with rfl | rfl | rfl <;> rcases h2 with rfl | rfl | rfl <;>
    (try exact absurd rfl hne) <;>
    (intro v hv
     simp only [vlist, List.mem_cons, List.not_mem_nil, or_false] at hv
     rcases hv with rfl | rfl | rfl <;> simp)

theorem faces_eq_of_two_uedges {fs : List Face} {t1 t2 : Face} {e1 e2 f1 f2 : DEdge}
    (hsep : FacesSep fs) (ht1 : t1 ∈ fs) (ht2 : t2 ∈ fs)
    (he1 : e1 ∈ dedges t1) (he2 : e2 ∈ dedges t1) (hne : uedge e1 ≠ uedge e2)
    (hf1 : f1 ∈ dedges t2) (hf2 : f2 ∈ dedges t2) (hnf : uedge f1 ≠ uedge f2)
    (h1 : uedge e1 = uedge f1) (h2 : uedge e2 = uedge f2) : t1 = t2 := by
  apply hsep t1 ht1 t2 ht2
  · intro v hv
    rcases vlist_cover he1 he2 hne v hv with rfl | rfl | rfl | rfl
    · rcases uedge_endpoints h1 with ⟨ha, _⟩ | ⟨ha, _⟩
      · exact ha ▸ mem_vlist_fst hf1
      · exact ha ▸ mem_vlist_snd hf1
    · rcases uedge_endpoints h1 with ⟨_, hb⟩ | ⟨_, hb⟩
      · exact hb ▸ mem_vlist_snd hf1
      · exact hb ▸ mem_vlist_fst hf1
    · rcases uedge_endpoints h2 with ⟨ha, _⟩ | ⟨ha, _⟩
      · exact ha ▸ mem_vlist_fst hf2
      · exact ha ▸ mem_vlist_snd hf2
    · rcases uedge_endpoints h2 with ⟨_, hb⟩ | ⟨_, hb⟩
      · exact hb ▸ mem_vlist_snd hf2
      · exact hb ▸ mem_vlist_fst hf2
  · intro v hv
    rcases vlist_cover hf1 hf2 hnf v hv with rfl | rfl | rfl | rfl
    · rcases uedge_endpoints h1 with ⟨ha, _⟩ | ⟨_, hb⟩
      · exact ha ▸ mem_vlist_fst he1
      · exact hb ▸ mem_vlist_snd he1
    · rcases uedge_endpoints h1 with ⟨_, hb⟩ | ⟨ha, _⟩
      · exact hb ▸ mem_vlist_snd he1
      · exact ha ▸ mem_vlist_fst he1
    · rcases uedge_endpoints h2 with ⟨ha, _⟩ | ⟨_, hb⟩
      · exact ha ▸ mem_vlist_fst he2
      · exact hb ▸ mem_vlist_snd he2
    · rcases uedge_endpoints h2 with ⟨_, hb⟩ | ⟨ha, _⟩
      · exact hb ▸ mem_vlist_snd he2
      · exact ha ▸ mem_vlist_fst he2

theorem count_allDedges_ge {fs : List Face} {t : Face} {e : DEdge}
    (he : e ∈ dedges t) : fs.count t ≤ (allDedges fs).count e := by
  induction fs with
  | nil => simp
  | cons x xs ih =>
    have hall : allDedges (x :: xs) = dedges x ++ allDedges xs := rfl
    rw [hall, List.count_append, List.count_cons]
    by_cases hx : (x == t) = true
    · have hxt : x = t := beq_iff_eq.mp hx
      have h1 : 1 ≤ (dedges x).count e := by
        rw [hxt]
        exact List.count_pos_iff.mpr he
      rw [if_pos hx]
      omega
    · rw [if_neg hx]
      omega

theorem face_count_one {fs : List Face} {t : Face} (hw : Wind fs) (ht : t ∈ fs) :
    fs.count t = 1 := by
  have hsub := dedges_subset_allDedges ht
  have h1 : (t.1, t.2.1) ∈ allDedges fs := hsub (by simp [dedges])
  have hle := @count_allDedges_ge fs t (t.1, t.2.1) (by simp [dedges])
  have hcount := (hw _ h1).2.1
  have hpos : 0 < fs.count t := List.count_pos_iff.mpr ht
  omega

theorem face_mids_ne {nv : Nat} {fs : List Face} {t : Face} (hw : Wind fs)
    (ht : t ∈ fs) :
    midF nv fs (t.1, t.2.1) ≠ midF nv fs (t.2.1, t.2.2) ∧
    midF nv fs (t.2.1, t.2.2) ≠ midF nv fs (t.2.2, t.1) ∧
    midF nv fs (t.2.2, t.1) ≠ midF nv fs (t.1, t.2.1) := by
  have htot := @buildSt_total_orient nv _ (wind_orient hw)
  have hsub := dedges_subset_allDedges ht
  have h1 : (t.1, t.2.1) ∈ allDedges fs := hsub (by simp [dedges])
  have h2 : (t.2.1, t.2.2) ∈ allDedges fs := hsub (by simp [dedges])
  have h3 : (t.2.2, t.1) ∈ allDedges fs := hsub (by simp [dedges])
  obtain ⟨d1, d2, d3⟩ := face_distinct hw ht
  refine ⟨?_, ?_, ?_⟩
  · intro hc
    rcases uedge_eq_iff.mp (midF_inj (htot _ h1) (htot _ h2) hc) with h | h <;>
      · simp only [swapE, Prod.mk.injEq] at h
        omega
  · intro hc
    rcases uedge_eq_iff.mp (midF_inj (htot _ h2) (htot _ h3) hc) with h | h <;>
      · simp only [swapE, Prod.mk.injEq] at h
        omega
  · intro hc
    rcases uedge_eq_iff.mp (midF_inj (htot _ h3) (htot _ h1) hc) with h | h <;>
      · simp only [swapE, Prod.mk.injEq] at h
        omega

theorem mem_inners_of {M : DEdge → Nat} {t : Face} {f f' : DEdge}
    (hf : f ∈ dedges t) (hf' : f' ∈ dedges t) (hne : f ≠ f') :
    (M f, M f') ∈ inners M t := by
  rcases t with ⟨a, b, c⟩
  simp only [dedges, List.mem_cons, List.not_mem_nil, or_false] at hf hf'
  rcases hf with rfl | rfl | rfl <;> rcases hf' with rfl | rfl | rfl <;>
    first
      | exact absurd rfl hne
      | simp [inners]

theorem mem_inners_inv {M : DEdge → Nat} {t : Face} {E : DEdge}
    (hd1 : t.1 ≠ t.2.1) (hd2 : t.2.1 ≠ t.2.2) (hd3 : t.2.2 ≠ t.1)
    (h : E ∈ inners M t) :
    ∃ f f', f ∈ dedges t ∧ f' ∈ dedges t ∧ uedge f ≠ uedge f' ∧
      E = (M f, M f') := by
  have u12 : uedge (t.1, t.2.1) ≠ uedge (t.2.1, t.2.2) := by
    intro hc
    rcases uedge_eq_iff.mp hc with h' | h' <;>
      · simp only [swapE, Prod.mk.injEq] at h'
        omega
  have u23 : uedge (t.2.1, t.2.2) ≠ uedge (t.2.2, t.1) := by
    intro hc
    rcases uedge_eq_iff.mp hc with h' | h' <;>
      · simp only [swapE, Prod.mk.injEq] at h'
        omega
  have u31 : uedge (t.2.2, t.1) ≠ uedge (t.1, t.2.1) := by
    intro hc
    rcases uedge_eq_iff.mp hc with h' | h' <;>
      · simp only [swapE, Prod.mk.injEq] at h'
        omega
  simp only [inners, List.mem_cons, List.not_mem_nil, or_false] at h
  rcases h with rfl | rfl | rfl | rfl | rfl | rfl
  · exact ⟨(t.1, t.2.1), (t.2.2, t.1), by simp [dedges], by simp [dedges],
      Ne.symm u31, rfl⟩
  · exact ⟨(t.2.1, t.2.2), (t.1, t.2.1), by simp [dedges], by simp [dedges],
      Ne.symm u12, rfl⟩
  · exact ⟨(t.2.2, t.1), (t.2.1, t.2.2), by simp [dedges], by simp [dedges],
      Ne.symm u23, rfl⟩
  · exact ⟨(t.1, t.2.1), (t.2.1, t.2.2), by simp [dedges], by simp [dedges],
      u12, rfl⟩
  · exact ⟨(t.2.1, t.2.2), (t.2.2, t.1), by simp [dedges], by simp [dedges],
      u23, rfl⟩
  · exact ⟨(t.2.2, t.1), (t.1, t.2.1), by simp [dedges], by simp [dedges],
      u31, rfl⟩

theorem inners_nodup {M : DEdge → Nat} {t : Face}
    (h12 : M (t.1, t.2.1) ≠ M (t.2.1, t.2.2))
    (h23 : M (t.2.1, t.2.2) ≠ M (t.2.2, t.1))
    (h31 : M (t.2.2, t.1) ≠ M (t.1, t.2.1)) : (inners M t).Nodup := by
  rcases t with ⟨x, y, z⟩
  simp only [inners, List.nodup_cons, List.mem_cons, List.not_mem_nil, or_false,
    List.nodup_nil, and_true, true_and, Prod.mk.injEq, not_or,
    not_false_eq_true] at h12 h23 h31 ⊢
  omega

/-! ### Counting the child edges -/

theorem count_fsthalf {nv : Nat} {fs : List Face} (hw : Wind fs) (hok : okF nv fs)
    {e0 : DEdge} (he0 : e0 ∈ allDedges fs) :
    (allDedges (catChildren (midF nv fs) fs)).count (e0.1, midF nv fs e0) = 1 := by
  have htot := @buildSt_total_orient nv _ (wind_orient hw)
  have hx : e0.1 < nv := (edge_bounds hok he0).1
  have hm : nv ≤ midF nv fs e0 := midF_ge (htot _ he0)
  rw [count_cat_decomp]
  have hinner : (fs.map
      (fun t => (inners (midF nv fs) t).count (e0.1, midF nv fs e0))).sum = 0 := by
    apply sum_zero_of_all_zero
    intro t ht
    apply List.count_eq_zero_of_not_mem
    intro hmem
    obtain ⟨d1, d2, d3⟩ := face_distinct hw ht
    obtain ⟨f, f', hf, hf', _, hE⟩ := mem_inners_inv d1 d2 d3 hmem
    have hf1 : f ∈ allDedges fs := dedges_subset_allDedges ht hf
    have hc1 : e0.1 = midF nv fs f := (Prod.ext_iff.mp hE).1
    have hc2 := midF_ge (htot _ hf1)
    omega
  have hsplitc : ((allDedges fs).map
        (fun e => (splitE (midF nv fs) e).count (e0.1, midF nv fs e0))).sum =
      ((allDedges fs).map
        (fun e => if e.1 = e0.1 ∧ midF nv fs e = midF nv fs e0 then 1 else 0)).sum := by
    congr 1
    apply List.map_congr_left
    intro e he
    have he2 : e.2 < nv := (edge_bounds hok he).2
    have hne2 : ¬((((midF nv fs e, e.2) : DEdge) ==
        ((e0.1, midF nv fs e0) : DEdge)) = true) := by
      intro hc
      have h2 : e.2 = midF nv fs e0 := (Prod.ext_iff.mp (beq_iff_eq.mp hc)).2
      omega
    rw [splitE, List.count_cons, List.count_cons, List.count_nil, if_neg hne2]
    by_cases hb : ((((e.1, midF nv fs e) : DEdge) ==
        ((e0.1, midF nv fs e0) : DEdge)) = true)
    · have hcomp := beq_iff_eq.mp hb
      have hp : e.1 = e0.1 ∧ midF nv fs e = midF nv fs e0 := Prod.ext_iff.mp hcomp
      rw [if_pos hb, if_pos hp]
    · have hp : ¬(e.1 = e0.1 ∧ midF nv fs e = midF nv fs e0) := by
        rintro ⟨hc1, hc2⟩
        exact hb (beq_iff_eq.mpr (by rw [hc1, hc2]))
      rw [if_neg hb, if_neg hp]
  have huniq : ∀ e ∈ allDedges fs,
      (e.1 = e0.1 ∧ midF nv fs e = midF nv fs e0) → e = e0 := by
    rintro e he ⟨hc1, hc2⟩
    rcases uedge_eq_iff.mp (midF_inj (htot _ he) (htot _ he0) hc2) with h | h
    · exact h
    · exfalso
      have hne0 := (hw e0 he0).1
      have : e.1 = e0.2 := by rw [h]; rfl
      omega
  rw [hsplitc, sum_indicator_eq_count_edge ⟨rfl, rfl⟩ huniq, hinner, (hw e0 he0).2.1]

theorem count_sndhalf {nv : Nat} {fs : List Face} (hw : Wind fs) (hok : okF nv fs)
    {e0 : DEdge} (he0 : e0 ∈ allDedges fs) :
    (allDedges (catChildren (midF nv fs) fs)).count (midF nv fs e0, e0.2) = 1 := by
  have htot := @buildSt_total_orient nv _ (wind_orient hw)
  have hx : e0.2 < nv := (edge_bounds hok he0).2
  have hm : nv ≤ midF nv fs e0 := midF_ge (htot _ he0)
  rw [count_cat_decomp]
  have hinner : (fs.map
      (fun t => (inners (midF nv fs) t).count (midF nv fs e0, e0.2))).sum = 0 := by
    apply sum_zero_of_all_zero
    intro t ht
    apply List.count_eq_zero_of_not_mem
    intro hmem
    obtain ⟨d1, d2, d3⟩ := face_distinct hw ht
    obtain ⟨f, f', hf, hf', _, hE⟩ := mem_inners_inv d1 d2 d3 hmem
    have hf1 : f' ∈ allDedges fs := dedges_subset_allDedges ht hf'
    have hc1 : e0.2 = midF nv fs f' := (Prod.ext_iff.mp hE).2
    have hc2 := midF_ge (htot _ hf1)
    omega
  have hsplitc : ((allDedges fs).map
        (fun e => (splitE (midF nv fs) e).count (midF nv fs e0, e0.2))).sum =
      ((allDedges fs).map
        (fun e => if midF nv fs e = midF nv fs e0 ∧ e.2 = e0.2 then 1 else 0)).sum := by
    congr 1
    apply List.map_congr_left
    intro e he
    have he1 : e.1 < nv := (edge_bounds hok he).1
    have hne1 : ¬((((e.1, midF nv fs e) : DEdge) ==
        ((midF nv fs e0, e0.2) : DEdge)) = true) := by
      intro hc
      have h1 : e.1 = midF nv fs e0 := (Prod.ext_iff.mp (beq_iff_eq.mp hc)).1
      omega
    rw [splitE, List.count_cons, List.count_cons, List.count_nil, if_neg hne1]
    by_cases hb : ((((midF nv fs e, e.2) : DEdge) ==
        ((midF nv fs e0, e0.2) : DEdge)) = true)
    · have hcomp := beq_iff_eq.mp hb
      have hp : midF nv fs e = midF nv fs e0 ∧ e.2 = e0.2 := Prod.ext_iff.mp hcomp
      rw [if_pos hb, if_pos hp]
    · have hp : ¬(midF nv fs e = midF nv fs e0 ∧ e.2 = e0.2) := by
        rintro ⟨hc1, hc2⟩
        exact hb (beq_iff_eq.mpr (by rw [hc1, hc2]))
      rw [if_neg hb, if_neg hp]
  have huniq : ∀ e ∈ allDedges fs,
      (midF nv fs e = midF nv fs e0 ∧ e.2 = e0.2) → e = e0 := by
    rintro e he ⟨hc2, hc1⟩
    rcases uedge_eq_iff.mp (midF_inj (htot _ he) (htot _ he0) hc2) with h | h
    · exact h
    · exfalso
      have hne0 := (hw e0 he0).1
      have : e.2 = e0.1 := by rw [h]; rfl
      omega
  rw [hsplitc, sum_indicator_eq_count_edge ⟨rfl, rfl⟩ huniq, hinner, (hw e0 he0).2.1]

theorem count_inner {nv : Nat} {fs : List Face} (hw : Wind fs) (hok : okF nv fs)
    (hsep : FacesSep fs) {t0 : Face} (ht0 : t0 ∈ fs) {f1 f2 : DEdge}
    (h1 : f1 ∈ dedges t0) (h2 : f2 ∈ dedges t0) (hne : uedge f1 ≠ uedge f2) :
    (allDedges (catChildren (midF nv fs) fs)).count
      (midF nv fs f1, midF nv fs f2) = 1 := by
  have htot := @buildSt_total_orient nv _ (wind_orient hw)
  have hf1 : f1 ∈ allDedges fs := dedges_subset_allDedges ht0 h1
  have hf2 : f2 ∈ allDedges fs := dedges_subset_allDedges ht0 h2
  have hm1 : nv ≤ midF nv fs f1 := midF_ge (htot _ hf1)
  have hm2 : nv ≤ midF nv fs f2 := midF_ge (htot _ hf2)
  rw [count_cat_decomp]
  have hsplit : ((allDedges fs).map
      (fun e => (splitE (midF nv fs) e).count (midF nv fs f1, midF nv fs f2))).sum
      = 0 := by
    apply sum_zero_of_all_zero
    intro e he
    obtain ⟨hb1, hb2⟩ := edge_bounds hok he
    apply List.count_eq_zero_of_not_mem
    intro hmem
    simp only [splitE, List.mem_cons, List.not_mem_nil, or_false] at hmem
    rcases hmem with hc | hc
    · have hcc : midF nv fs f1 = e.1 := (Prod.ext_iff.mp hc).1
      omega
    · have hcc : midF nv fs f2 = e.2 := (Prod.ext_iff.mp hc).2
      omega
  have hperface : ∀ t ∈ fs, (inners (midF nv fs) t).count
      (midF nv fs f1, midF nv fs f2) =
      if ((midF nv fs f1, midF nv fs f2) : DEdge) ∈ inners (midF nv fs) t
        then 1 else 0 := by
    intro t ht
    obtain ⟨hm12, hm23, hm31⟩ := @face_mids_ne nv _ _ hw ht
    have hnd := inners_nodup hm12 hm23 hm31
    by_cases hmem : ((midF nv fs f1, midF nv fs f2) : DEdge) ∈ inners (midF nv fs) t
    · rw [if_pos hmem]
      exact count_eq_one_edge hnd hmem
    · rw [if_neg hmem]
      exact List.count_eq_zero_of_not_mem hmem
  have hne12 : f1 ≠ f2 := fun hc => hne (hc ▸ rfl)
  have h0 : ((midF nv fs f1, midF nv fs f2) : DEdge) ∈ inners (midF nv fs) t0 :=
    mem_inners_of h1 h2 hne12
  have huniq : ∀ t ∈ fs,
      ((midF nv fs f1, midF nv fs f2) : DEdge) ∈ inners (midF nv fs) t → t = t0 := by
    intro t ht hmem
    obtain ⟨d1, d2, d3⟩ := face_distinct hw ht
    obtain ⟨g1, g2, hg1, hg2, hgne, hE⟩ := mem_inners_inv d1 d2 d3 hmem
    have hgg1 : g1 ∈ allDedges fs := dedges_subset_allDedges ht hg1
    have hgg2 : g2 ∈ allDedges fs := dedges_subset_allDedges ht hg2
    have hq1 : midF nv fs f1 = midF nv fs g1 := (Prod.ext_iff.mp hE).1
    have hq2 : midF nv fs f2 = midF nv fs g2 := (Prod.ext_iff.mp hE).2
    have hu1 : uedge g1 = uedge f1 :=
      midF_inj (htot _ hgg1) (htot _ hf1) (hq1.symm)
    have hu2 : uedge g2 = uedge f2 :=
      midF_inj (htot _ hgg2) (htot _ hf2) (hq2.symm)
    exact faces_eq_of_two_uedges hsep ht ht0 hg1 hg2 hgne h1 h2 hne hu1 hu2
  have hcongr : (fs.map (fun t => (inners (midF nv fs) t).count
      (midF nv fs f1, midF nv fs f2))).sum =
      (fs.map (fun t => if ((midF nv fs f1, midF nv fs f2) : DEdge) ∈
        inners (midF nv fs) t then 1 else 0)).sum := by
    congr 1
    exact List.map_congr_left hperface
  rw [hsplit, hcongr, sum_indicator_eq_count_face h0 huniq, face_count_one hw ht0]

theorem face_uedge_ne {t : Face} (hd1 : t.1 ≠ t.2.1) (hd2 : t.2.1 ≠ t.2.2)
    (hd3 : t.2.2 ≠ t.1) :
    uedge (t.1, t.2.1) ≠ uedge (t.2.1, t.2.2) ∧
    uedge (t.2.1, t.2.2) ≠ uedge (t.2.2, t.1) ∧
    uedge (t.2.2, t.1) ≠ uedge (t.1, t.2.1) := by
  refine ⟨?_, ?_, ?_⟩ <;>
    · intro hc
      rcases uedge_eq_iff.mp hc with h | h <;>
        · simp only [swapE, Prod.mk.injEq] at h
          omega

/-- One subdivision iteration preserves the winding invariant. -/
theorem step_wind {nv : Nat} {fs : List Face} (hw : Wind fs) (hok : okF nv fs)
    (hsep : FacesSep fs) : Wind (catChildren (midF nv fs) fs) := by
  intro E hE
  obtain ⟨t, ht, hEt⟩ := mem_allDedges_catChildren.mp hE
  have ho := wind_orient hw
  have htot := @buildSt_total_orient nv _ ho
  have hsub := dedges_subset_allDedges ht
  have h1 : (t.1, t.2.1) ∈ allDedges fs := hsub (by simp [dedges])
  have h2 : (t.2.1, t.2.2) ∈ allDedges fs := hsub (by simp [dedges])
  have h3 : (t.2.2, t.1) ∈ allDedges fs := hsub (by simp [dedges])
  obtain ⟨d1, d2, d3⟩ := face_distinct hw ht
  obtain ⟨b1, b2, b3⟩ := hok t ht
  have g1 : nv ≤ midF nv fs (t.1, t.2.1) := midF_ge (htot _ h1)
  have g2 : nv ≤ midF nv fs (t.2.1, t.2.2) := midF_ge (htot _ h2)
  have g3 : nv ≤ midF nv fs (t.2.2, t.1) := midF_ge (htot _ h3)
  obtain ⟨m12, m23, m31⟩ := @face_mids_ne nv _ _ hw ht
  obtain ⟨u12, u23, u31⟩ := face_uedge_ne d1 d2 d3
  have r1 : swapE (t.1, t.2.1) ∈ allDedges fs := (ho _ h1).2
  have r2 : swapE (t.2.1, t.2.2) ∈ allDedges fs := (ho _ h2).2
  have r3 : swapE (t.2.2, t.1) ∈ allDedges fs := (ho _ h3).2
  have c1f := count_fsthalf hw hok h1
  have c1s := count_sndhalf hw hok h1
  have c2f := count_fsthalf hw hok h2
  have c2s := count_sndhalf hw hok h2
  have c3f := count_fsthalf hw hok h3
  have c3s := count_sndhalf hw hok h3
  have w1f := count_fsthalf hw hok r1
  have w1s := count_sndhalf hw hok r1
  have w2f := count_fsthalf hw hok r2
  have w2s := count_sndhalf hw hok r2
  have w3f := count_fsthalf hw hok r3
  have w3s := count_sndhalf hw hok r3
  rw [midF_swapE] at w1f w1s w2f w2s w3f w3s
  have i12 := count_inner hw hok hsep ht
    (show ((t.1, t.2.1) : DEdge) ∈ dedges t by simp [dedges])
    (show ((t.2.1, t.2.2) : DEdge) ∈ dedges t by simp [dedges]) u12
  have i21 := count_inner hw hok hsep ht
    (show ((t.2.1, t.2.2) : DEdge) ∈ dedges t by simp [dedges])
    (show ((t.1, t.2.1) : DEdge) ∈ dedges t by simp [dedges]) (Ne.symm u12)
  have i23 := count_inner hw hok hsep ht
    (show ((t.2.1, t.2.2) : DEdge) ∈ dedges t by simp [dedges])
    (show ((t.2.2, t.1) : DEdge) ∈ dedges t by simp [dedges]) u23
  have i32 := count_inner hw hok hsep ht
    (show ((t.2.2, t.1) : DEdge) ∈ dedges t by simp [dedges])
    (show ((t.2.1, t.2.2) : DEdge) ∈ dedges t by simp [dedges]) (Ne.symm u23)
  have i31 := count_inner hw hok hsep ht
    (show ((t.2.2, t.1) : DEdge) ∈ dedges t by simp [dedges])
    (show ((t.1, t.2.1) : DEdge) ∈ dedges t by simp [dedges]) u31
  have i13 := count_inner hw hok hsep ht
    (show ((t.1, t.2.1) : DEdge) ∈ dedges t by simp [dedges])
    (show ((t.2.2, t.1) : DEdge) ∈ dedges t by simp [dedges]) (Ne.symm u31)
  rw [allDedges_child4] at hEt
  simp only [List.mem_cons, List.not_mem_nil, or_false] at hEt
  rcases hEt with rfl | rfl | rfl | rfl | rfl | rfl | rfl | rfl | rfl | rfl | rfl | rfl
  · exact ⟨Nat.ne_of_lt (by omega), c1f, by simpa [swapE] using w1s⟩
  · exact ⟨Ne.symm m31, i13, by simpa [swapE] using i31⟩
  · exact ⟨Nat.ne_of_gt (by omega), c3s, by simpa [swapE] using w3f⟩
  · exact ⟨Nat.ne_of_lt (by omega), c2f, by simpa [swapE] using w2s⟩
  · exact ⟨Ne.symm m12, i21, by simpa [swapE] using i12⟩
  · exact ⟨Nat.ne_of_gt (by omega), c1s, by simpa [swapE] using w1f⟩
  · exact ⟨Nat.ne_of_lt (by omega), c3f, by simpa [swapE] using w3s⟩
  · exact ⟨Ne.symm m23, i32, by simpa [swapE] using i23⟩
  · exact ⟨Nat.ne_of_gt (by omega), c2s, by simpa [swapE] using w2f⟩
  · exact ⟨m12, i12, by simpa [swapE] using i21⟩
  · exact ⟨m23, i23, by simpa [swapE] using i32⟩
  · exact ⟨m31, i31, by simpa [swapE] using i13⟩

theorem mid_ne_of_uedge_ne {nv : Nat} {fs : List Face} (hw : Wind fs) {e e' : DEdge}
    (he : e ∈ allDedges fs) (he' : e' ∈ allDedges fs) (hne : uedge e ≠ uedge e') :
    midF nv fs e ≠ midF nv fs e' := by
  intro hc
  have htot := @buildSt_total_orient nv _ (wind_orient hw)
  exact hne (midF_inj (htot _ he) (htot _ he') hc)

theorem corner_corner_eq {nv : Nat} {fs : List Face} (hw : Wind fs)
    (hsep : FacesSep fs) {t1 t2 : Face} (ht1 : t1 ∈ fs)
    (ht2 : t2 ∈ fs) {v w : Nat} {eo ei fo fi : DEdge} (hv : v < nv) (hww : w < nv)
    (heo : eo ∈ dedges t1) (hei : ei ∈ dedges t1) (hue : uedge eo ≠ uedge ei)
    (hfo : fo ∈ dedges t2) (hfi : fi ∈ dedges t2) (huf : uedge fo ≠ uedge fi)
    (hab : vlist (v, midF nv fs eo, midF nv fs ei) ⊆
      vlist (w, midF nv fs fo, midF nv fs fi)) :
    v = w ∧ t1 = t2 := by
  have htot := @buildSt_total_orient nv _ (wind_orient hw)
  have aeo : eo ∈ allDedges fs := dedges_subset_allDedges ht1 heo
  have aei : ei ∈ allDedges fs := dedges_subset_allDedges ht1 hei
  have afo : fo ∈ allDedges fs := dedges_subset_allDedges ht2 hfo
  have afi : fi ∈ allDedges fs := dedges_subset_allDedges ht2 hfi
  have geo : nv ≤ midF nv fs eo := midF_ge (htot _ aeo)
  have gei : nv ≤ midF nv fs ei := midF_ge (htot _ aei)
  have gfo : nv ≤ midF nv fs fo := midF_ge (htot _ afo)
  have gfi : nv ≤ midF nv fs fi := midF_ge (htot _ afi)
  have hNe : midF nv fs eo ≠ midF nv fs ei := mid_ne_of_uedge_ne hw aeo aei hue
  have hvmem := hab (show v ∈ vlist (v, midF nv fs eo, midF nv fs ei) by simp [vlist])
  simp only [vlist, List.mem_cons, List.not_mem_nil, or_false] at hvmem
  have hvw : v = w := by
    rcases hvmem with h | h | h
    · exact h
    · omega
    · omega
  refine ⟨hvw, ?_⟩
  have hmeo := hab
    (show midF nv fs eo ∈ vlist (v, midF nv fs eo, midF nv fs ei) by simp [vlist])
  simp only [vlist, List.mem_cons, List.not_mem_nil, or_false] at hmeo
  have heof : midF nv fs eo = midF nv fs fo ∨ midF nv fs eo = midF nv fs fi := by
    rcases hmeo with h | h | h
    · omega
    · exact Or.inl h
    · exact Or.inr h
  have hmei := hab
    (show midF nv fs ei ∈ vlist (v, midF nv fs eo, midF nv fs ei) by simp [vlist])
  simp only [vlist, List.mem_cons, List.not_mem_nil, or_false] at hmei
  have heif : midF nv fs ei = midF nv fs fo ∨ midF nv fs ei = midF nv fs fi := by
    rcases hmei with h | h | h
    · omega
    · exact Or.inl h
    · exact Or.inr h
  rcases heof with hA | hA
  · have hB : midF nv fs ei = midF nv fs fi := by
      rcases heif with hB | hB
      · exfalso
        exact hNe (by rw [hA, hB])
      · exact hB
    exact faces_eq_of_two_uedges hsep ht1 ht2 heo hei hue hfo hfi huf
      (midF_inj (htot _ aeo) (htot _ afo) hA)
      (midF_inj (htot _ aei) (htot _ afi) hB)
  · have hB : midF nv fs ei = midF nv fs fo := by
      rcases heif with hB | hB
      · exact hB
      · exfalso
        exact hNe (by rw [hA, hB])
    exact faces_eq_of_two_uedges hsep ht1 ht2 heo hei hue hfi hfo (Ne.symm huf)
      (midF_inj (htot _ aeo) (htot _ afi) hA)
      (midF_inj (htot _ aei) (htot _ afo) hB)

/-- One subdivision iteration preserves separation of faces (no two distinct
child faces have the same vertex set). -/
theorem step_facesSep {nv : Nat} {fs : List Face} (hw : Wind fs)
    (hok : okF nv fs) (hsep : FacesSep fs) :
    FacesSep (catChildren (midF nv fs) fs) := by
  intro ta hta tb htb hab hba
  obtain ⟨t1, ht1, hc1⟩ := mem_catChildren.mp hta
  obtain ⟨t2, ht2, hc2⟩ := mem_catChildren.mp htb
  have htot := @buildSt_total_orient nv _ (wind_orient hw)
  have me1 : ((t1.1, t1.2.1) : DEdge) ∈ dedges t1 := by simp [dedges]
  have me2 : ((t1.2.1, t1.2.2) : DEdge) ∈ dedges t1 := by simp [dedges]
  have me3 : ((t1.2.2, t1.1) : DEdge) ∈ dedges t1 := by simp [dedges]
  have mf1 : ((t2.1, t2.2.1) : DEdge) ∈ dedges t2 := by simp [dedges]
  have mf2 : ((t2.2.1, t2.2.2) : DEdge) ∈ dedges t2 := by simp [dedges]
  have mf3 : ((t2.2.2, t2.1) : DEdge) ∈ dedges t2 := by simp [dedges]
  have a1 := dedges_subset_allDedges ht1 me1
  have a2 := dedges_subset_allDedges ht1 me2
  have a3 := dedges_subset_allDedges ht1 me3
  have c1 := dedges_subset_allDedges ht2 mf1
  have c2 := dedges_subset_allDedges ht2 mf2
  have c3 := dedges_subset_allDedges ht2 mf3
  obtain ⟨d1, d2, d3⟩ := face_distinct hw ht1
  obtain ⟨d1', d2', d3'⟩ := face_distinct hw ht2
  obtain ⟨b1, b2, b3⟩ := hok t1 ht1
  obtain ⟨b1', b2', b3'⟩ := hok t2 ht2
  obtain ⟨u12, u23, u31⟩ := face_uedge_ne d1 d2 d3
  obtain ⟨u12', u23', u31'⟩ := face_uedge_ne d1' d2' d3'
  obtain ⟨m12, m23, m31⟩ := @face_mids_ne nv _ _ hw ht1
  have ge1 : nv ≤ midF nv fs (t1.1, t1.2.1) := midF_ge (htot _ a1)
  have ge2 : nv ≤ midF nv fs (t1.2.1, t1.2.2) := midF_ge (htot _ a2)
  have ge3 : nv ≤ midF nv fs (t1.2.2, t1.1) := midF_ge (htot _ a3)
  have gf1 : nv ≤ midF nv fs (t2.1, t2.2.1) := midF_ge (htot _ c1)
  have gf2 : nv ≤ midF nv fs (t2.2.1, t2.2.2) := midF_ge (htot _ c2)
  have gf3 : nv ≤ midF nv fs (t2.2.2, t2.1) := midF_ge (htot _ c3)
  simp only [child4, List.mem_cons, List.not_mem_nil, or_false] at hc1 hc2
  rcases hc1 with rfl | rfl | rfl | rfl <;> rcases hc2 with rfl | rfl | rfl | rfl
  · obtain ⟨hvw, ht12⟩ := corner_corner_eq hw hsep ht1 ht2 b1 b1'
      me1 me3 (Ne.symm u31) mf1 mf3 (Ne.symm u31') hab
    subst ht12
    rfl
  · obtain ⟨hvw, ht12⟩ := corner_corner_eq hw hsep ht1 ht2 b1 b2'
      me1 me3 (Ne.symm u31) mf2 mf1 (Ne.symm u12') hab
    subst ht12
    exact absurd hvw d1
  · obtain ⟨hvw, ht12⟩ := corner_corner_eq hw hsep ht1 ht2 b1 b3'
      me1 me3 (Ne.symm u31) mf3 mf2 (Ne.symm u23') hab
    subst ht12
    exact absurd hvw (Ne.symm d3)
  · exfalso
    have hcc := hab (show t1.1 ∈ vlist
      (t1.1, midF nv fs (t1.1, t1.2.1), midF nv fs (t1.2.2, t1.1)) by simp [vlist])
    simp only [vlist, List.mem_cons, List.not_mem_nil, or_false] at hcc
    rcases hcc with h | h | h <;> omega
  · obtain ⟨hvw, ht12⟩ := corner_corner_eq hw hsep ht1 ht2 b2 b1'
      me2 me1 (Ne.symm u12) mf1 mf3 (Ne.symm u31') hab
    subst ht12
    exact absurd hvw.symm d1
  · obtain ⟨hvw, ht12⟩ := corner_corner_eq hw hsep ht1 ht2 b2 b2'
      me2 me1 (Ne.symm u12) mf2 mf1 (Ne.symm u12') hab
    subst ht12
    rfl
  · obtain ⟨hvw, ht12⟩ := corner_corner_eq hw hsep ht1 ht2 b2 b3'
      me2 me1 (Ne.symm u12) mf3 mf2 (Ne.symm u23') hab
    subst ht12
    exact absurd hvw d2
  · exfalso
    have hcc := hab (show t1.2.1 ∈ vlist
      (t1.2.1, midF nv fs (t1.2.1, t1.2.2), midF nv fs (t1.1, t1.2.1)) by simp [vlist])
    simp only [vlist, List.mem_cons, List.not_mem_nil, or_false] at hcc
    rcases hcc with h | h | h <;> omega
  · obtain ⟨hvw, ht12⟩ := corner_corner_eq hw hsep ht1 ht2 b3 b1'
      me3 me2 (Ne.symm u23) mf1 mf3 (Ne.symm u31') hab
    subst ht12
    exact absurd hvw d3
  · obtain ⟨hvw, ht12⟩ := corner_corner_eq hw hsep ht1 ht2 b3 b2'
      me3 me2 (Ne.symm u23) mf2 mf1 (Ne.symm u12') hab
    subst ht12
    exact absurd hvw.symm d2
  · obtain ⟨hvw, ht12⟩ := corner_corner_eq hw hsep ht1 ht2 b3 b3'
      me3 me2 (Ne.symm u23) mf3 mf2 (Ne.symm u23') hab
    subst ht12
    rfl
  · exfalso
    have hcc := hab (show t1.2.2 ∈ vlist
      (t1.2.2, midF nv fs (t1.2.2, t1.1), midF nv fs (t1.2.1, t1.2.2)) by simp [vlist])
    simp only [vlist, List.mem_cons, List.not_mem_nil, or_false] at hcc
    rcases hcc with h | h | h <;> omega
  · exfalso
    have hcc := hba (show t2.1 ∈ vlist
      (t2.1, midF nv fs (t2.1, t2.2.1), midF nv fs (t2.2.2, t2.1)) by simp [vlist])
    simp only [vlist, List.mem_cons, List.not_mem_nil, or_false] at hcc
    rcases hcc with h | h | h <;> omega
  · exfalso
    have hcc := hba (show t2.2.1 ∈ vlist
      (t2.2.1, midF nv fs (t2.2.1, t2.2.2), midF nv fs (t2.1, t2.2.1)) by simp [vlist])
    simp only [vlist, List.mem_cons, List.not_mem_nil, or_false] at hcc
    rcases hcc with h | h | h <;> omega
  · exfalso
    have hcc := hba (show t2.2.2 ∈ vlist
      (t2.2.2, midF nv fs (t2.2.2, t2.1), midF nv fs (t2.2.1, t2.2.2)) by simp [vlist])
    simp only [vlist, List.mem_cons, List.not_mem_nil, or_false] at hcc
    rcases hcc with h | h | h <;> omega
  · have hA := hab (show midF nv fs (t1.1, t1.2.1) ∈ vlist
      (midF nv fs (t1.1, t1.2.1), midF nv fs (t1.2.1, t1.2.2),
        midF nv fs (t1.2.2, t1.1)) by simp [vlist])
    have hB := hab (show midF nv fs (t1.2.1, t1.2.2) ∈ vlist
      (midF nv fs (t1.1, t1.2.1), midF nv fs (t1.2.1, t1.2.2),
        midF nv fs (t1.2.2, t1.1)) by simp [vlist])
    simp only [vlist, List.mem_cons, List.not_mem_nil, or_false] at hA hB
    rcases hA with hA | hA | hA <;> rcases hB with hB | hB | hB
    · omega
    · have ht12 := faces_eq_of_two_uedges hsep ht1 ht2 me1 me2 u12 mf1 mf2 u12'
        (midF_inj (htot _ a1) (htot _ c1) hA) (midF_inj (htot _ a2) (htot _ c2) hB)
      subst ht12
      rfl
    · have ht12 := faces_eq_of_two_uedges hsep ht1 ht2 me1 me2 u12 mf1 mf3
        (Ne.symm u31')
        (midF_inj (htot _ a1) (htot _ c1) hA) (midF_inj (htot _ a2) (htot _ c3) hB)
      subst ht12
      rfl
    · have ht12 := faces_eq_of_two_uedges hsep ht1 ht2 me1 me2 u12 mf2 mf1
        (Ne.symm u12')
        (midF_inj (htot _ a1) (htot _ c2) hA) (midF_inj (htot _ a2) (htot _ c1) hB)
      subst ht12
      rfl
    · omega
    · have ht12 := faces_eq_of_two_uedges hsep ht1 ht2 me1 me2 u12 mf2 mf3 u23'
        (midF_inj (htot _ a1) (htot _ c2) hA) (midF_inj (htot _ a2) (htot _ c3) hB)
      subst ht12
      rfl
    · have ht12 := faces_eq_of_two_uedges hsep ht1 ht2 me1 me2 u12 mf3 mf1 u31'
        (midF_inj (htot _ a1) (htot _ c3) hA) (midF_inj (htot _ a2) (htot _ c1) hB)
      subst ht12
      rfl
    · have ht12 := faces_eq_of_two_uedges hsep ht1 ht2 me1 me2 u12 mf3 mf2
        (Ne.symm u23')
        (midF_inj (htot _ a1) (htot _ c3) hA) (midF_inj (htot _ a2) (htot _ c2) hB)
      subst ht12
      rfl
    · omega

/-! ### The full invariant is preserved by the subdivision loop -/

theorem stepF_wind_ind {nv : Nat} {fs : List Face} (hw : Wind fs)
    (hsep : FacesSep fs) (hok : okF nv fs) (hne : fs ≠ []) :
    ∃ f2, stepF nv fs = some (nv + (canonEdges fs).length, f2) ∧
      Wind f2 ∧ FacesSep f2 ∧ okF (nv + (canonEdges fs).length) f2 ∧ f2 ≠ [] := by
  obtain ⟨f2, hstep, hlen, ho2, hok2, hne2⟩ := stepF_orient_ind (wind_orient hw) hok hne
  obtain ⟨hreb, _⟩ := stepF_some_inv hstep
  have hcat : f2 = catChildren (midF nv fs) fs := rebuild_eq_catChildren hreb
  refine ⟨f2, hstep, ?_, ?_, hok2, hne2⟩
  · rw [hcat]
    exact step_wind hw hok hsep
  · rw [hcat]
    exact step_facesSep hw hok hsep

theorem tessF_wind (k : Nat) : ∀ nv fs, Wind fs → FacesSep fs → okF nv fs →
    fs ≠ [] → ∃ nv' fs', tessF k nv fs = some (nv', fs') ∧ Wind fs' ∧
      FacesSep fs' ∧ okF nv' fs' ∧ fs' ≠ [] := by
  induction k with
  | zero =>
    intro nv fs hw hsep hok hne
    exact ⟨nv, fs, rfl, hw, hsep, hok, hne⟩
  | succ k ih =>
    intro nv fs hw hsep hok hne
    obtain ⟨f2, hstep, hw2, hsep2, hok2, hne2⟩ := stepF_wind_ind hw hsep hok hne
    obtain ⟨nv', fs', htess, hw', hsep', hok', hne'⟩ := ih _ f2 hw2 hsep2 hok2 hne2
    refine ⟨nv', fs', ?_, hw', hsep', hok', hne'⟩
    rw [tessF, hstep]
    exact htess

/-! ### Number of allocated midpoints equals the number of undirected edges -/

theorem uedge_of_le {e : DEdge} (h : e.1 ≤ e.2) : uedge e = e := if_pos h

theorem src_numUEdges {nv : Nat} {fs : List Face} (hw : Wind fs) :
    (buildSt nv fs).src.length = numUEdges fs := by
  rw [buildSt_src, numUEdges]
  have hnd := canonEdges_nodup hw
  rw [← List.toFinset_card_of_nodup hnd]
  congr 1
  apply Finset.ext
  intro x
  simp only [List.mem_toFinset, List.mem_map]
  constructor
  · intro hx
    have hmem := List.mem_filter.mp hx
    have hlt : x.1 < x.2 := by simpa using hmem.2
    exact ⟨x, hmem.1, uedge_of_le hlt.le⟩
  · rintro ⟨e, he, rfl⟩
    have hne := (hw e he).1
    rcases Nat.lt_or_ge e.1 e.2 with hlt | hge
    · rw [uedge_of_le hlt.le]
      exact List.mem_filter.mpr ⟨he, by simpa using hlt⟩
    · have hlt2 : e.2 < e.1 := by omega
      have hswap : swapE e ∈ allDedges fs := (wind_orient hw e he).2
      have hu : uedge e = swapE e := by
        unfold uedge
        rw [if_neg (by omega)]
      rw [hu]
      refine List.mem_filter.mpr ⟨hswap, ?_⟩
      simp only [swapE, decide_eq_true_eq]
      exact hlt2

/-- Claim C10: the winding-consistency invariant (every undirected edge occurs
in exactly two faces which traverse it in opposite directions) holds for the
hardcoded icosahedron face table, holds for the dome's face array after every
number of tessellate iterations, is preserved by a subdivision step, and is
what guarantees that the subdivision step succeeds, that every edge-key lookup
succeeds, and that exactly one midpoint vertex is allocated per undirected
edge. -/
theorem dome_winding_invariant :
    Wind icoF ∧
    (∀ k, ∃ nvk fsk, tessF k 12 icoF = some (nvk, fsk) ∧ Wind fsk) ∧
    (∀ nv fs, Wind fs → FacesSep fs → okF nv fs → fs ≠ [] →
      ∃ nv' f2, stepF nv fs = some (nv', f2) ∧ Wind f2) ∧
    (∀ nv fs, Wind fs → fs ≠ [] →
      (((stepF nv fs).isSome : Prop) ∧
        (buildSt nv fs).src.length = numUEdges fs ∧
        ∀ e ∈ allDedges fs, (((buildSt nv fs).d e).isSome : Prop))) := by
  refine ⟨by decide, ?_, ?_, ?_⟩
  · intro k
    obtain ⟨nv', fs', h1, h2, _⟩ :=
      tessF_wind k 12 icoF (by decide) (by decide) (by decide) (by decide)
    exact ⟨nv', fs', h1, h2⟩
  · intro nv fs hw hsep hok hne
    obtain ⟨f2, hstep, hw2, _⟩ := stepF_wind_ind hw hsep hok hne
    exact ⟨_, f2, hstep, hw2⟩
  · intro nv fs hw hne
    obtain ⟨f2, hstep, _⟩ := stepF_some (wind_orient hw) hne
    refine ⟨?_, src_numUEdges hw, buildSt_total_orient (wind_orient hw)⟩
    rw [hstep]
    rfl

/-! ### The value of the new vertices (claim C3) -/

theorem add3_comm (p q : V3) : add3 p q = add3 q p := by
  unfold add3
  exact Prod.ext (add_comm _ _) (Prod.ext (add_comm _ _) (add_comm _ _))

theorem norm3_half (p : V3) : norm3 (div3 p 2) = norm3 p / 2 := by
  unfold norm3 div3
  have h4 : ((p.1 / 2) ^ 2 + (p.2.1 / 2) ^ 2 + (p.2.2 / 2) ^ 2) =
      (p.1 ^ 2 + p.2.1 ^ 2 + p.2.2 ^ 2) / 4 := by ring
  rw [h4, Real.sqrt_div (by positivity) 4]
  have hs4 : Real.sqrt 4 = 2 := by
    rw [show (4 : ℝ) = 2 ^ 2 by norm_num, Real.sqrt_sq (by norm_num)]
  rw [hs4]

theorem div_half_div_half (x n : ℝ) : x / 2 / (n / 2) = x / n := by
  rcases eq_or_ne n 0 with rfl | hn
  · simp
  · field_simp

theorem newvert_eq_normMid (p q : V3) : newvert p q = normMid p q := by
  unfold newvert normMid
  rw [norm3_half]
  unfold div3
  refine Prod.ext ?_ (Prod.ext ?_ ?_) <;>
    simp only [div_half_div_half]

theorem getD_map_lt {α β : Type} (f : α → β) (l : List α) (i : Nat) (d : α)
    (d' : β) (h : i < l.length) : (l.map f).getD i d' = f (l.getD i d) := by
  rw [List.getD_eq_getElem _ _ (by rw [List.length_map]; exact h),
    List.getElem_map, List.getD_eq_getElem _ _ h]

/-- Claim C3: during one subdivision iteration of a consistently wound mesh,
the iteration succeeds; the number of appended vertices equals the number of
undirected edges; the dictionary maps each directed edge and its reverse to
one common new vertex index, whose vertex equals the midpoint of the two
endpoint vertices projected to the unit sphere by dividing by its norm; the
rebuilt faces reference these indices through the dictionary; and distinct
undirected edges never share a new vertex index. -/
theorem subdivision_midpoint_dedup (vs : List V3) (fs : List Face)
    (hw : Wind fs) (hne : fs ≠ []) :
    ∃ vs' f2, stepV vs fs = some (vs', f2) ∧
      vs'.length = vs.length + numUEdges fs ∧
      f2 = catChildren (midF vs.length fs) fs ∧
      (∀ e ∈ allDedges fs, ∃ m,
        (buildSt vs.length fs).d e = some m ∧
        (buildSt vs.length fs).d (swapE e) = some m ∧
        vs.length ≤ m ∧ m < vs'.length ∧
        vs'.getD m (0, 0, 0) = normMid (getV3 vs e.1) (getV3 vs e.2)) ∧
      (∀ e e' m, (buildSt vs.length fs).d e = some m →
        (buildSt vs.length fs).d e' = some m → uedge e = uedge e') := by
  have ho := wind_orient hw
  have htot := @buildSt_total_orient vs.length _ ho
  obtain ⟨f2, hreb⟩ := rebuild_isSome htot
  have hsrc : (buildSt vs.length fs).src.isEmpty = false := by
    rw [buildSt_src]
    cases hc : canonEdges fs with
    | nil => exact absurd hc (canonEdges_ne_nil ho hne)
    | cons a l => rfl
  have hstep : stepV vs fs = some
      (vs ++ (buildSt vs.length fs).src.map
        (fun e => newvert (getV3 vs e.1) (getV3 vs e.2)), f2) := by
    unfold stepV
    simp only [hsrc, Bool.false_eq_true, if_false, hreb, Option.map_some']
  refine ⟨_, f2, hstep, ?_, rebuild_eq_catChildren hreb, ?_, ?_⟩
  · rw [List.length_append, List.length_map, src_numUEdges hw]
  · intro e he
    have hsm := midF_spec (htot e he)
    refine ⟨midF vs.length fs e, hsm, ?_, ?_, ?_, ?_⟩
    · rw [buildSt_d_symm]
      exact hsm
    · exact midF_ge (htot e he)
    · rw [List.length_append, List.length_map]
      have hlt := midF_lt (htot e he)
      have hlen : (buildSt vs.length fs).src.length = (canonEdges fs).length := by
        rw [buildSt_src]
      omega
    · obtain ⟨hm1, hm2, hm3⟩ := buildSt_d_some hsm
      obtain ⟨_, hinc, _⟩ := buildSt_dsound vs.length fs
      have hilt : midF vs.length fs e - vs.length <
          (buildSt vs.length fs).src.length := by
        rw [buildSt_src]
        omega
      rw [List.getD_append_right _ _ _ _ (by omega)]
      rw [getD_map_lt _ _ _ (0, 0) _ hilt]
      set c := (buildSt vs.length fs).src.getD (midF vs.length fs e - vs.length)
        (0, 0) with hc
      have hcc : c = (canonEdges fs).getD (midF vs.length fs e - vs.length)
          (0, 0) := by
        rw [hc, buildSt_src]
      rcases hm3 with hm3 | hm3
      · rw [← hcc] at hm3
        rw [← hm3, newvert_eq_normMid]
      · rw [← hcc] at hm3
        have he1 : e.1 = c.2 := by rw [hm3]; rfl
        have he2 : e.2 = c.1 := by rw [hm3]; rfl
        rw [he1, he2, newvert_eq_normMid]
        unfold normMid
        rw [add3_comm]
  · intro e e' m h1 h2
    exact buildSt_d_uedge h1 h2

/-- Witness for C3 at a concrete input: a vertex array of four points with the
consistently wound tetrahedron. -/
theorem subdivision_midpoint_dedup_witness :
    ∃ vs' f2, stepV vsExample tetra = some (vs', f2) ∧
      vs'.length = vsExample.length + numUEdges tetra ∧
      f2 = catChildren (midF vsExample.length tetra) tetra ∧
      (∀ e ∈ allDedges tetra, ∃ m,
        (buildSt vsExample.length tetra).d e = some m ∧
        (buildSt vsExample.length tetra).d (swapE e) = some m ∧
        vsExample.length ≤ m ∧ m < vs'.length ∧
        vs'.getD m (0, 0, 0) = normMid (getV3 vsExample e.1) (getV3 vsExample e.2)) ∧
      (∀ e e' m, (buildSt vsExample.length tetra).d e = some m →
        (buildSt vsExample.length tetra).d e' = some m → uedge e = uedge e') :=
  subdivision_midpoint_dedup vsExample tetra (by decide) (by decide)

/-! ### `force_ccw` (claims C2 and C8) -/

theorem dir_flip {α : Type} [LinearOrderedField α] (p q r : α × α × α) :
    dotP (crossP (subP p q) (subP r q)) q =
      -(dotP (crossP (subP q p) (subP r p)) p) := by
  rcases p with ⟨p1, p2, p3⟩
  rcases q with ⟨q1, q2, q3⟩
  rcases r with ⟨r1, r2, r3⟩
  unfold dotP crossP subP
  ring

theorem faceDir_swap {α : Type} [LinearOrderedField α] (vs : List (α × α × α))
    (t : Face) : faceDir vs (t.2.1, t.1, t.2.2) = -faceDir vs t := by
  unfold faceDir
  exact dir_flip (getP vs t.1) (getP vs t.2.1) (getP vs t.2.2)

theorem faceDir_flipFace_nonneg {α : Type} [LinearOrderedField α]
    (vs : List (α × α × α)) (t : Face) : 0 ≤ faceDir vs (flipFace vs t) := by
  unfold flipFace
  by_cases h : faceDir vs t < 0
  · rw [if_pos h, faceDir_swap]
    linarith
  · rw [if_neg h]
    linarith

theorem flipFace_flipFace {α : Type} [LinearOrderedField α]
    (vs : List (α × α × α)) (t : Face) :
    flipFace vs (flipFace vs t) = flipFace vs t := by
  by_cases h : faceDir vs t < 0
  · have hs : flipFace vs t = (t.2.1, t.1, t.2.2) := if_pos h
    rw [hs]
    unfold flipFace
    rw [if_neg]
    rw [faceDir_swap]
    linarith
  · have hs : flipFace vs t = t := if_neg h
    rw [hs, hs]

/-- Claim C2: after `force_ccw`, the vertex array is unchanged and every face
`(a, b, c)` satisfies `((v[b] - v[a]) x (v[c] - v[a])) . v[a] >= 0` (exactly,
in the exact-arithmetic model, which implies the spec tolerance `>= -1e-12`);
a face whose signed quantity is strictly negative has its first two indices
swapped in place, and a face whose quantity is exactly `0` is left
unflipped. -/
theorem force_ccw_spec {α : Type} [LinearOrderedField α] (m : TriMesh α) :
    (force_ccw m).v = m.v ∧
    (force_ccw m).f = m.f.map (flipFace m.v) ∧
    (∀ t ∈ (force_ccw m).f, 0 ≤ faceDir m.v t) ∧
    (∀ t ∈ m.f, faceDir m.v t < 0 → flipFace m.v t = (t.2.1, t.1, t.2.2)) ∧
    (∀ t ∈ m.f, faceDir m.v t = 0 → flipFace m.v t = t) := by
  refine ⟨rfl, rfl, ?_, ?_, ?_⟩
  · intro t ht
    obtain ⟨t0, _, rfl⟩ := List.mem_map.mp ht
    exact faceDir_flipFace_nonneg m.v t0
  · intro t _ h
    exact if_pos h
  · intro t _ h
    unfold flipFace
    rw [if_neg]
    rw [h]
    exact lt_irrefl 0

/-- Witness for C2 at a concrete rational mesh. -/
theorem force_ccw_spec_witness :
    ∀ t ∈ (force_ccw meshExample).f, 0 ≤ faceDir meshExample.v t :=
  (force_ccw_spec meshExample).2.2.1

/-- Claim C8: `force_ccw` is idempotent — running it twice yields exactly the
same vertex array and face array as running it once. -/
theorem force_ccw_idem {α : Type} [LinearOrderedField α] (m : TriMesh α) :
    force_ccw (force_ccw m) = force_ccw m := by
  show TriMesh.mk m.v ((m.f.map (flipFace m.v)).map (flipFace m.v)) =
    TriMesh.mk m.v (m.f.map (flipFace m.v))
  rw [List.map_map]
  refine congrArg (TriMesh.mk m.v) ?_
  apply List.map_congr_left
  intro t _
  exact flipFace_flipFace m.v t

/-- Witness for C8 at a concrete rational mesh. -/
theorem force_ccw_idem_witness :
    force_ccw (force_ccw meshExampleB) = force_ccw meshExampleB :=
  force_ccw_idem meshExampleB

/-! ### `save_as_ply` (claim C9) -/

theorem digVal_digChar {d : Nat} (hd : d < 10) : digVal (digChar d) = some d := by
  interval_cases d <;> decide

theorem mapM_digVal (l : List Nat) (h : ∀ d ∈ l, d < 10) :
    (l.map digChar).mapM digVal = some l := by
  induction l with
  | nil => rfl
  | cons a l ih =>
    simp only [List.map_cons, List.mapM_cons]
    rw [digVal_digChar (h a (List.mem_cons_self a l)),
      ih (fun d hd => h d (List.mem_cons_of_mem a hd))]
    rfl

theorem parseNat_natStr (n : Nat) : parseNat (natStr n) = some n := by
  by_cases h : n = 0
  · subst h
    decide
  · have hne : Nat.digits 10 n ≠ [] := Nat.digits_ne_nil_iff_ne_zero.mpr h
    unfold natStr parseNat
    rw [if_neg h]
    have hdata : (String.mk ((Nat.digits 10 n).reverse.map digChar)).data =
        (Nat.digits 10 n).reverse.map digChar := rfl
    rw [hdata]
    rw [if_neg (by
      intro hc
      exact hne (List.reverse_eq_nil_iff.mp (List.map_eq_nil_iff.mp hc)))]
    rw [mapM_digVal _ (fun d hd =>
      Nat.digits_lt_base (by norm_num) (List.mem_reverse.mp hd))]
    rw [Option.map_some']
    rw [List.reverse_reverse, Nat.ofDigits_digits]

theorem strDrop_append (s t : String) : strDrop (s ++ t) s.data.length = t := by
  unfold strDrop
  have hd : (s ++ t).data = s.data ++ t.data := rfl
  rw [hd, List.drop_left]

/-- Claim C9: the lines written by `save_as_ply` are exactly the nine verbatim
header lines (with the vertex and face element counts rendered from the
in-memory lengths), followed by exactly one `x y z` line per vertex and one
`3 i j k` line per face; re-reading the counts from the written header lines
parses back exactly the in-memory `len(self.v)` and `len(self.f)`. -/
theorem save_as_ply_roundtrip {α : Type} (m : TriMesh α) (fmt : α → String) :
    (save_as_ply m fmt).length = 9 + m.v.length + m.f.length ∧
    (save_as_ply m fmt).take 9 = plyHeader m.v.length m.f.length ∧
    ((save_as_ply m fmt).drop 9).take m.v.length = m.v.map (vertexLine fmt) ∧
    (save_as_ply m fmt).drop (9 + m.v.length) = m.f.map faceLine ∧
    readCounts (save_as_ply m fmt) = some (m.v.length, m.f.length) := by
  have hhl : (plyHeader m.v.length m.f.length).length = 9 := rfl
  have hvl : (m.v.map (vertexLine fmt)).length = m.v.length := List.length_map _ _
  have hassoc : save_as_ply m fmt =
      plyHeader m.v.length m.f.length ++
        (m.v.map (vertexLine fmt) ++ m.f.map faceLine) := by
    unfold save_as_ply
    rw [List.append_assoc]
  have hdrop9 : (save_as_ply m fmt).drop 9 =
      m.v.map (vertexLine fmt) ++ m.f.map faceLine := by
    rw [hassoc, ← hhl, List.drop_left]
  refine ⟨?_, ?_, ?_, ?_, ?_⟩
  · unfold save_as_ply
    simp [plyHeader]
    omega
  · rw [hassoc, ← hhl, List.take_left]
  · rw [hdrop9, ← hvl, List.take_left]
  · have hdd : (save_as_ply m fmt).drop (9 + m.v.length) =
        ((save_as_ply m fmt).drop 9).drop m.v.length := by
      rw [List.drop_drop, Nat.add_comm]
    rw [hdd, hdrop9, ← hvl, List.drop_left]
  · have h2 : (save_as_ply m fmt)[2]? =
        some ("element vertex " ++ natStr m.v.length) := by
      rw [hassoc, List.getElem?_append_left (by rw [hhl]; omega)]
      rfl
    have h6 : (save_as_ply m fmt)[6]? =
        some ("element face " ++ natStr m.f.length) := by
      rw [hassoc, List.getElem?_append_left (by rw [hhl]; omega)]
      rfl
    have hsv : strDrop ("element vertex " ++ natStr m.v.length) 15 =
        natStr m.v.length := by
      have h15 : ("element vertex ").data.length = 15 := rfl
      rw [← h15, strDrop_append]
    have hsf : strDrop ("element face " ++ natStr m.f.length) 13 =
        natStr m.f.length := by
      have h13 : ("element face ").data.length = 13 := rfl
      rw [← h13, strDrop_append]
    unfold readCounts
    rw [h2, h6]
    dsimp only
    rw [hsv, hsf, parseNat_natStr, parseNat_natStr]

/-! ### The icosahedron numerics (claim C6) -/

theorem sqrt5_sq : Real.sqrt 5 ^ 2 = 5 := Real.sq_sqrt (by norm_num)

theorem sqrt5_lb : 2 ≤ Real.sqrt 5 := by
  nlinarith [sqrt5_sq, Real.sqrt_nonneg 5]

theorem sqrt5_ub : Real.sqrt 5 ≤ 2.3 := by
  nlinarith [sqrt5_sq, Real.sqrt_nonneg 5]

theorem icoA_nonneg : 0 ≤ icoA := by
  unfold icoA
  positivity

theorem icoB_nonneg : 0 ≤ icoB := Real.sqrt_nonneg _

theorem icoC_nonneg : 0 ≤ icoC := Real.sqrt_nonneg _

theorem icoD_nonneg : 0 ≤ icoD := Real.sqrt_nonneg _

theorem icoA_sq : icoA ^ 2 = (5 + 2 * Real.sqrt 5) / 20 := by
  unfold icoA icoP
  rw [div_pow, Real.sq_sqrt (by nlinarith [Real.sqrt_nonneg 5])]
  ring

theorem icoB_sq : icoB ^ 2 = (5 + Real.sqrt 5) / 10 := by
  have hpos : 0 < Real.sqrt 5 := by nlinarith [sqrt5_lb]
  unfold icoB icoP
  rw [Real.sq_sqrt (div_nonneg (by nlinarith [Real.sqrt_nonneg 5]) hpos.le)]
  rw [div_div, div_eq_div_iff (by positivity) (by norm_num)]
  linear_combination (-2 : ℝ) * sqrt5_sq

theorem icoC_sq : icoC ^ 2 = (5 - Real.sqrt 5) / 10 := by
  unfold icoC
  rw [Real.sq_sqrt (by nlinarith [icoA_sq, sqrt5_ub])]
  linear_combination -icoA_sq

theorem eq_of_sq_eq {x y : ℝ} (hx : 0 ≤ x) (hy : 0 ≤ y) (h : x ^ 2 = y ^ 2) :
    x = y := by
  rw [← Real.sqrt_sq hx, h, Real.sqrt_sq hy]

theorem icoAB : icoA * icoB = (3 * Real.sqrt 5 + 5) / 20 := by
  refine eq_of_sq_eq (mul_nonneg icoA_nonneg icoB_nonneg)
    (by nlinarith [sqrt5_lb]) ?_
  rw [mul_pow, icoA_sq, icoB_sq]
  linear_combination (-1 / 80 : ℝ) * sqrt5_sq

theorem icoD_sq : icoD ^ 2 = (5 + Real.sqrt 5) / 10 := by
  have hba : (icoB - icoA) ^ 2 = (5 - 2 * Real.sqrt 5) / 20 := by
    have hx : (icoB - icoA) ^ 2 = icoB ^ 2 - 2 * (icoA * icoB) + icoA ^ 2 := by
      ring
    rw [hx, icoB_sq, icoA_sq, icoAB]
    ring
  unfold icoD
  rw [Real.sq_sqrt (by nlinarith [hba, Real.sqrt_nonneg 5])]
  rw [hba]
  ring

theorem icoCD : icoC * icoD = Real.sqrt 5 / 5 := by
  refine eq_of_sq_eq (mul_nonneg icoC_nonneg icoD_nonneg)
    (by positivity) ?_
  rw [mul_pow, icoC_sq, icoD_sq]
  linear_combination (-1 / 20 : ℝ) * sqrt5_sq

theorem icoR_sq : (icoC + icoD / 2) ^ 2 = (5 + Real.sqrt 5) / 8 := by
  linear_combination icoC_sq + icoCD + (1 / 4 : ℝ) * icoD_sq

theorem icoR_pos : 0 < icoC + icoD / 2 := by
  nlinarith [icoR_sq, icoC_nonneg, icoD_nonneg, sqrt5_lb]

theorem icoR_le_one : icoC + icoD / 2 ≤ 1 := by
  nlinarith [icoR_sq, icoR_pos, sqrt5_ub]

theorem icoVraw_zero : getV3 icoVraw 0 = (0, 0, icoC + icoD / 2) := by
  unfold getV3 icoVraw icoCyl cylToCart
  simp

theorem icoScale_eq : icoScale = 1 / (icoC + icoD / 2) := by
  unfold icoScale
  rw [icoVraw_zero]

theorem icoScale_ge_one : 1 ≤ icoScale := by
  rw [icoScale_eq, le_div_iff icoR_pos, one_mul]
  exact icoR_le_one

theorem icoR_mul_scale : (icoC + icoD / 2) * icoScale = 1 := by
  rw [icoScale_eq, mul_one_div]
  exact div_self (ne_of_gt icoR_pos)

theorem icoB_half : 1 / 2 ≤ icoB := by
  nlinarith [icoB_sq, icoB_nonneg, sqrt5_lb]

theorem icoD_half : 1 / 2 ≤ icoD := by
  nlinarith [icoD_sq, icoD_nonneg, sqrt5_lb]

theorem cos_two_fifths_pi :
    Real.cos (2 * (Real.pi / 5)) = (Real.sqrt 5 - 1) / 4 := by
  rw [Real.cos_two_mul, Real.cos_pi_div_five]
  linear_combination (1 / 8 : ℝ) * sqrt5_sq

theorem cos_three_fifths_pi :
    Real.cos (3 * (Real.pi / 5)) = -((Real.sqrt 5 - 1) / 4) := by
  have h : 3 * (Real.pi / 5) = Real.pi - 2 * (Real.pi / 5) := by ring
  rw [h, Real.cos_pi_sub, cos_two_fifths_pi]

theorem cos_four_fifths_pi :
    Real.cos (4 * (Real.pi / 5)) = -((1 + Real.sqrt 5) / 4) := by
  have h : 4 * (Real.pi / 5) = Real.pi - Real.pi / 5 := by ring
  rw [h, Real.cos_pi_sub, Real.cos_pi_div_five]

theorem cos_six_fifths_pi :
    Real.cos (6 * (Real.pi / 5)) = -((1 + Real.sqrt 5) / 4) := by
  have h : 6 * (Real.pi / 5) = 2 * Real.pi - 4 * (Real.pi / 5) := by ring
  rw [h, Real.cos_two_pi_sub, cos_four_fifths_pi]

theorem cos_seven_fifths_pi :
    Real.cos (7 * (Real.pi / 5)) = -((Real.sqrt 5 - 1) / 4) := by
  have h : 7 * (Real.pi / 5) = 2 * Real.pi - 3 * (Real.pi / 5) := by ring
  rw [h, Real.cos_two_pi_sub, cos_three_fifths_pi]

theorem cos_eight_fifths_pi :
    Real.cos (8 * (Real.pi / 5)) = (Real.sqrt 5 - 1) / 4 := by
  have h : 8 * (Real.pi / 5) = 2 * Real.pi - 2 * (Real.pi / 5) := by ring
  rw [h, Real.cos_two_pi_sub, cos_two_fifths_pi]

theorem cos_nine_fifths_pi :
    Real.cos (9 * (Real.pi / 5)) = (1 + Real.sqrt 5) / 4 := by
  have h : 9 * (Real.pi / 5) = 2 * Real.pi - Real.pi / 5 := by ring
  rw [h, Real.cos_two_pi_sub, Real.cos_pi_div_five]

theorem abs_sin_half {x : ℝ} (h : Real.cos x ^ 2 ≤ 3 / 4) :
    1 / 2 ≤ |Real.sin x| := by
  have hpy := Real.sin_sq_add_cos_sq x
  have h3 : Real.sin x ^ 2 = |Real.sin x| ^ 2 := (sq_abs _).symm
  nlinarith [abs_nonneg (Real.sin x)]

theorem snap_zero : snap 0 = 0 := by
  unfold snap
  exact ite_self 0

theorem snap_big {x : ℝ} (h : 1 / 8 ≤ |x|) : snap x = x := by
  unfold snap tol
  rw [if_neg]
  intro hc
  norm_num at hc
  linarith

theorem snap3_eq (p : V3) (h1 : p.1 = 0 ∨ 1 / 8 ≤ |p.1|)
    (h2 : p.2.1 = 0 ∨ 1 / 8 ≤ |p.2.1|) (h3 : p.2.2 = 0 ∨ 1 / 8 ≤ |p.2.2|) :
    snap3 p = p := by
  have e : ∀ x : ℝ, x = 0 ∨ 1 / 8 ≤ |x| → snap x = x := by
    intro x hx
    rcases hx with rfl | hx
    · exact snap_zero
    · exact snap_big hx
  unfold snap3
  rw [e _ h1, e _ h2, e _ h3]

theorem norm3_scaled (r θ z : ℝ)
    (h : r ^ 2 + z ^ 2 = (icoC + icoD / 2) ^ 2) :
    norm3 (mul3 (cylToCart (r, θ, z)) icoScale) = 1 := by
  unfold norm3 mul3 cylToCart
  dsimp only
  have hpy := Real.sin_sq_add_cos_sq θ
  have hsum : (r * Real.cos θ * icoScale) ^ 2 + (r * Real.sin θ * icoScale) ^ 2 +
      (z * icoScale) ^ 2 = 1 := by
    have expand : (r * Real.cos θ * icoScale) ^ 2 +
        (r * Real.sin θ * icoScale) ^ 2 + (z * icoScale) ^ 2 =
        (r ^ 2 * (Real.sin θ ^ 2 + Real.cos θ ^ 2) + z ^ 2) * icoScale ^ 2 := by
      ring
    rw [expand, hpy, mul_one, h, ← mul_pow, icoR_mul_scale, one_pow]
  rw [hsum, Real.sqrt_one]

theorem ring_vertex_norm (θ z : ℝ) (hz : z = icoD / 2 ∨ z = -(icoD / 2))
    (hc : 1 / 4 ≤ |Real.cos θ|) (hs : Real.sin θ = 0 ∨ 1 / 2 ≤ |Real.sin θ|) :
    norm3 (snap3 (mul3 (cylToCart (icoB, θ, z)) icoScale)) = 1 := by
  have hb := icoB_half
  have hd := icoD_half
  have hs1 := icoScale_ge_one
  have hs0 : (0 : ℝ) ≤ icoScale := by linarith
  have habs : |icoScale| = icoScale := abs_of_nonneg hs0
  have hcart : mul3 (cylToCart (icoB, θ, z)) icoScale =
      (icoB * Real.cos θ * icoScale, icoB * Real.sin θ * icoScale,
        z * icoScale) := rfl
  have hzabs : 1 / 4 ≤ |z| := by
    rcases hz with rfl | rfl
    · rw [abs_of_nonneg (by linarith)]
      linarith
    · rw [abs_neg, abs_of_nonneg (by linarith)]
      linarith
  have hx : 1 / 8 ≤ |icoB * Real.cos θ * icoScale| := by
    rw [abs_mul, abs_mul, abs_of_nonneg (by linarith : (0 : ℝ) ≤ icoB), habs]
    have t1 : 1 / 2 * (1 / 4) ≤ icoB * |Real.cos θ| :=
      mul_le_mul hb hc (by norm_num) (by linarith)
    have t2 : 1 / 2 * (1 / 4) * 1 ≤ icoB * |Real.cos θ| * icoScale :=
      mul_le_mul t1 hs1 (by norm_num)
        (le_trans (by norm_num) t1)
    linarith
  have hy : icoB * Real.sin θ * icoScale = 0 ∨
      1 / 8 ≤ |icoB * Real.sin θ * icoScale| := by
    rcases hs with h0 | hsin
    · left
      rw [h0, mul_zero, zero_mul]
    · right
      rw [abs_mul, abs_mul, abs_of_nonneg (by linarith : (0 : ℝ) ≤ icoB), habs]
      have t1 : 1 / 2 * (1 / 2) ≤ icoB * |Real.sin θ| :=
        mul_le_mul hb hsin (by norm_num) (by linarith)
      have t2 : 1 / 2 * (1 / 2) * 1 ≤ icoB * |Real.sin θ| * icoScale :=
        mul_le_mul t1 hs1 (by norm_num)
          (le_trans (by norm_num) t1)
      linarith
  have hzc : 1 / 8 ≤ |z * icoScale| := by
    rw [abs_mul, habs]
    have t2 : 1 / 4 * 1 ≤ |z| * icoScale :=
      mul_le_mul hzabs hs1 (by norm_num) (le_trans (by norm_num) hzabs)
    linarith
  rw [hcart]
  rw [snap3_eq _ (Or.inr hx) hy (Or.inr hzc)]
  rw [← hcart]
  apply norm3_scaled
  rcases hz with rfl | rfl
  · linear_combination icoB_sq + (1 / 4 : ℝ) * icoD_sq - icoR_sq
  · linear_combination icoB_sq + (1 / 4 : ℝ) * icoD_sq - icoR_sq

theorem pole_vertex_norm (z : ℝ)
    (hz : z = icoC + icoD / 2 ∨ z = -(icoC + icoD / 2)) :
    norm3 (snap3 (mul3 (cylToCart (0, 0, z)) icoScale)) = 1 := by
  have hone : ¬|(1 : ℝ)| < tol := by
    unfold tol
    rw [abs_one]
    norm_num
  have hcart : mul3 (cylToCart (0, 0, z)) icoScale =
      (0 * Real.cos 0 * icoScale, 0 * Real.sin 0 * icoScale, z * icoScale) := rfl
  rcases hz with rfl | rfl
  · have hv : mul3 (cylToCart ((0 : ℝ), (0 : ℝ), icoC + icoD / 2)) icoScale =
        (0, 0, 1) := by
      rw [hcart, zero_mul, zero_mul, zero_mul, zero_mul, icoR_mul_scale]
    rw [hv, snap3_eq _ (Or.inl rfl) (Or.inl rfl) (Or.inr (by rw [abs_one]; norm_num))]
    unfold norm3
    norm_num
  · have hv : mul3 (cylToCart ((0 : ℝ), (0 : ℝ), -(icoC + icoD / 2))) icoScale =
        (0, 0, -1) := by
      rw [hcart, zero_mul, zero_mul, zero_mul, zero_mul, neg_mul, icoR_mul_scale]
    rw [hv, snap3_eq _ (Or.inl rfl) (Or.inl rfl)
      (Or.inr (by rw [abs_neg, abs_one]; norm_num))]
    unfold norm3
    norm_num

theorem abs_cosval_big : 1 / 4 ≤ |(1 + Real.sqrt 5) / 4| := by
  rw [abs_of_nonneg (by nlinarith [Real.sqrt_nonneg 5])]
  nlinarith [Real.sqrt_nonneg 5]

theorem abs_cosval_small : 1 / 4 ≤ |(Real.sqrt 5 - 1) / 4| := by
  rw [abs_of_nonneg (by nlinarith [sqrt5_lb])]
  nlinarith [sqrt5_lb]

theorem sq_cosval_big : ((1 + Real.sqrt 5) / 4) ^ 2 ≤ 3 / 4 := by
  nlinarith [sqrt5_sq, sqrt5_ub, Real.sqrt_nonneg 5]

theorem sq_cosval_small : ((Real.sqrt 5 - 1) / 4) ^ 2 ≤ 3 / 4 := by
  nlinarith [sqrt5_sq, sqrt5_lb]

theorem icoV_norm : ∀ p ∈ icoV, norm3 p = 1 := by
  intro p hp
  unfold icoV at hp
  rw [List.mem_map] at hp
  obtain ⟨w, hw, rfl⟩ := hp
  rw [List.mem_map] at hw
  obtain ⟨q, hq, rfl⟩ := hw
  unfold icoVraw at hq
  rw [List.mem_map] at hq
  obtain ⟨c, hc, rfl⟩ := hq
  unfold icoCyl at hc
  simp only [List.mem_cons, List.not_mem_nil, or_false] at hc
  rcases hc with rfl | rfl | rfl | rfl | rfl | rfl | rfl | rfl | rfl | rfl |
    rfl | rfl
  · exact pole_vertex_norm _ (Or.inl rfl)
  · rw [show (2 * 0 * Real.pi / 5 : ℝ) = 0 by ring]
    exact ring_vertex_norm 0 (icoD / 2) (Or.inl rfl)
      (by rw [Real.cos_zero, abs_one]; norm_num) (Or.inl Real.sin_zero)
  · rw [show (2 * 1 * Real.pi / 5 : ℝ) = 2 * (Real.pi / 5) by ring]
    exact ring_vertex_norm _ _ (Or.inl rfl)
      (by rw [cos_two_fifths_pi]; exact abs_cosval_small)
      (Or.inr (abs_sin_half (by rw [cos_two_fifths_pi]; exact sq_cosval_small)))
  · rw [show (2 * 2 * Real.pi / 5 : ℝ) = 4 * (Real.pi / 5) by ring]
    exact ring_vertex_norm _ _ (Or.inl rfl)
      (by rw [cos_four_fifths_pi, abs_neg]; exact abs_cosval_big)
      (Or.inr (abs_sin_half
        (by rw [cos_four_fifths_pi, neg_sq]; exact sq_cosval_big)))
  · rw [show (2 * 3 * Real.pi / 5 : ℝ) = 6 * (Real.pi / 5) by ring]
    exact ring_vertex_norm _ _ (Or.inl rfl)
      (by rw [cos_six_fifths_pi, abs_neg]; exact abs_cosval_big)
      (Or.inr (abs_sin_half
        (by rw [cos_six_fifths_pi, neg_sq]; exact sq_cosval_big)))
  · rw [show (2 * 4 * Real.pi / 5 : ℝ) = 8 * (Real.pi / 5) by ring]
    exact ring_vertex_norm _ _ (Or.inl rfl)
      (by rw [cos_eight_fifths_pi]; exact abs_cosval_small)
      (Or.inr (abs_sin_half
        (by rw [cos_eight_fifths_pi]; exact sq_cosval_small)))
  · rw [show ((2 * 0 + 1) * Real.pi / 5 : ℝ) = Real.pi / 5 by ring]
    exact ring_vertex_norm _ _ (Or.inr rfl)
      (by rw [Real.cos_pi_div_five]; exact abs_cosval_big)
      (Or.inr (abs_sin_half
        (by rw [Real.cos_pi_div_five]; exact sq_cosval_big)))
  · rw [show ((2 * 1 + 1) * Real.pi / 5 : ℝ) = 3 * (Real.pi / 5) by ring]
    exact ring_vertex_norm _ _ (Or.inr rfl)
      (by rw [cos_three_fifths_pi, abs_neg]; exact abs_cosval_small)
      (Or.inr (abs_sin_half
        (by rw [cos_three_fifths_pi, neg_sq]; exact sq_cosval_small)))
  · rw [show ((2 * 2 + 1) * Real.pi / 5 : ℝ) = Real.pi by ring]
    exact ring_vertex_norm _ _ (Or.inr rfl)
      (by rw [Real.cos_pi, abs_neg, abs_one]; norm_num) (Or.inl Real.sin_pi)
  · rw [show ((2 * 3 + 1) * Real.pi / 5 : ℝ) = 7 * (Real.pi / 5) by ring]
    exact ring_vertex_norm _ _ (Or.inr rfl)
      (by rw [cos_seven_fifths_pi, abs_neg]; exact abs_cosval_small)
      (Or.inr (abs_sin_half
        (by rw [cos_seven_fifths_pi, neg_sq]; exact sq_cosval_small)))
  · rw [show ((2 * 4 + 1) * Real.pi / 5 : ℝ) = 9 * (Real.pi / 5) by ring]
    exact ring_vertex_norm _ _ (Or.inr rfl)
      (by rw [cos_nine_fifths_pi]; exact abs_cosval_big)
      (Or.inr (abs_sin_half
        (by rw [cos_nine_fifths_pi]; exact sq_cosval_big)))
  · exact pole_vertex_norm _ (Or.inr rfl)

theorem icoV_len : icoV.length = 12 := by
  unfold icoV icoVraw icoCyl
  simp

/-- Claim C6: the icosahedron builder produces exactly 12 vertices, and the
hardcoded face table has exactly 20 faces; in the exact-arithmetic model every
produced vertex (after the pole-normalizing scale and the near-zero snap) has
Euclidean norm exactly 1, so in particular all vertex norms are identical
within the spec tolerance `1e-9`; in the face table every undirected edge lies
in exactly two faces, and each of the 12 vertex indices occurs in exactly 5
faces, poles included. -/
theorem icosahedron_spec :
    icoV.length = 12 ∧ icoF.length = 20 ∧
    (∀ p ∈ icoV, norm3 p = 1) ∧
    (∀ e ∈ allDedges icoF, ((allDedges icoF).map uedge).count (uedge e) = 2) ∧
    (∀ i, i < 12 →
      icoF.countP (fun t => t.1 == i || t.2.1 == i || t.2.2 == i) = 5) :=
  ⟨icoV_len, rfl, icoV_norm, by decide, by decide⟩

/-! ### Degenerate inputs (claim C4) -/

/-- Counterexample to C4: the doubled-edge mesh `tripleMesh` has an undirected
edge shared by three faces, yet one subdivision iteration does not fail: it
silently succeeds, producing a 12-face mesh (and 5 new vertices, although the
mesh has only 3 undirected edges) — there is no `GeometryError`, and
non-manifold topology is not detected. -/
theorem geometryError_cex :
    ((allDedges tripleMesh).map uedge).count (uedge (0, 1)) = 3 ∧
    ((stepF 3 tripleMesh).map (fun p => (p.1, p.2.length))) = some (8, 12) ∧
    (buildSt 3 tripleMesh).src.length = 5 ∧ numUEdges tripleMesh = 3 := by
  constructor
  · decide
  constructor
  · decide
  constructor
  · decide
  · decide

/-- Claim C4 (amended): the code defines no `GeometryError`.  What actually
happens on each degenerate input: a mesh whose edges lie in only one face makes
the rebuilding loop look up a never-stored key, so `tessellate` dies with an
uncaught `KeyError` (modelled as `none`); an edge shared by three faces is NOT
detected — subdivision silently succeeds with duplicated midpoint vertices
(see the counterexample); and `fibonacci_sphere(1)` does not raise: the
division by `samples - 1 = 0` yields a value (numpy emits only a warning), so
a 1-point array is returned. -/
theorem degenerate_input_behavior :
    tessF 1 3 oneTri = none ∧
    ((stepF 3 tripleMesh).map (fun p => (p.1, p.2.length))) ≠ none ∧
    (fibonacci_sphere 1).length = 1 := by
  refine ⟨by decide, by decide, ?_⟩
  unfold fibonacci_sphere
  simp

/-! ### `fibonacci_sphere` (claim C5) -/

theorem fibPoint_third (n i : Nat) :
    (fibPoint n i).2.2 = 1 - ((i : ℝ) / ((n : ℝ) - 1)) * 2 := rfl

theorem fibPoint_inj (n : Nat) (hn : 2 ≤ n) {i j : Nat} (hij : i < j) :
    fibPoint n i ≠ fibPoint n j := by
  intro h
  have h3 := congrArg (fun p : V3 => p.2.2) h
  simp only [fibPoint_third] at h3
  have h2 : (2 : ℝ) ≤ (n : ℝ) := by exact_mod_cast hn
  have hd : (0 : ℝ) < (n : ℝ) - 1 := by linarith
  have hij' : (i : ℝ) < (j : ℝ) := by exact_mod_cast hij
  have h4 : (i : ℝ) / ((n : ℝ) - 1) = (j : ℝ) / ((n : ℝ) - 1) := by linarith
  rw [div_eq_div_iff (ne_of_gt hd) (ne_of_gt hd)] at h4
  have h5 : (i : ℝ) = (j : ℝ) := mul_right_cancel₀ (ne_of_gt hd) h4
  linarith

theorem fibPoint_norm (n i : Nat) (hn : 2 ≤ n) (hin : i < n) :
    norm3 (fibPoint n i) = 1 := by
  have h2 : (2 : ℝ) ≤ (n : ℝ) := by exact_mod_cast hn
  have hd : (0 : ℝ) < (n : ℝ) - 1 := by linarith
  have hi1 : (i : ℝ) + 1 ≤ (n : ℝ) := by exact_mod_cast hin
  have ht0 : (0 : ℝ) ≤ (i : ℝ) / ((n : ℝ) - 1) :=
    div_nonneg (Nat.cast_nonneg i) hd.le
  have ht1 : (i : ℝ) / ((n : ℝ) - 1) ≤ 1 := (div_le_one hd).mpr (by linarith)
  unfold fibPoint norm3
  dsimp only
  set y : ℝ := 1 - ((i : ℝ) / ((n : ℝ) - 1)) * 2 with hy
  have hyl : -1 ≤ y := by rw [hy]; linarith
  have hyu : y ≤ 1 := by rw [hy]; linarith
  have hy2 : y ^ 2 ≤ 1 := by
    nlinarith [mul_nonneg (by linarith : (0 : ℝ) ≤ 1 - y)
      (by linarith : (0 : ℝ) ≤ 1 + y)]
  have hr : Real.sqrt (1 - y ^ 2) ^ 2 = 1 - y ^ 2 :=
    Real.sq_sqrt (by linarith)
  set th := Real.pi * (Real.sqrt 5 - 1) * (i : ℝ) with hth
  have hsc := Real.sin_sq_add_cos_sq th
  have hsum : (Real.sin th * Real.sqrt (1 - y ^ 2)) ^ 2 +
      (Real.cos th * Real.sqrt (1 - y ^ 2)) ^ 2 + y ^ 2 = 1 := by
    nlinarith [hr, hsc]
  rw [hsum, Real.sqrt_one]

theorem fibPoint_first (n : Nat) : fibPoint n 0 = (0, 0, 1) := by
  unfold fibPoint
  dsimp only
  norm_num

theorem fibPoint_last (n : Nat) (hn : 2 ≤ n) :
    fibPoint n (n - 1) = (0, 0, -1) := by
  have h2 : (2 : ℝ) ≤ (n : ℝ) := by exact_mod_cast hn
  have hd : ((n : ℝ) - 1) ≠ 0 := by linarith
  have hc : ((n - 1 : Nat) : ℝ) = (n : ℝ) - 1 := by
    have h1 : 1 ≤ n := by omega
    rw [Nat.cast_sub h1, Nat.cast_one]
  unfold fibPoint
  dsimp only
  rw [hc, div_self hd]
  norm_num

/-- Claim C5: for every `N >= 2`, `fibonacci_sphere(N)` returns exactly `N`
pairwise-distinct points, each of exactly unit Euclidean norm in the
exact-arithmetic model (hence within the spec tolerance `1e-9`), emitted in
`(z, x, y)` coordinate order so that point `0` equals `(0, 0, 1)` and point
`N - 1` equals `(0, 0, -1)`. -/
theorem fibonacci_sphere_spec (n : Nat) (hn : 2 ≤ n) :
    (fibonacci_sphere n).length = n ∧
    (fibonacci_sphere n).Pairwise (fun p q => p ≠ q) ∧
    (∀ p ∈ fibonacci_sphere n, norm3 p = 1) ∧
    (fibonacci_sphere n).getD 0 (0, 0, 0) = (0, 0, 1) ∧
    (fibonacci_sphere n).getD (n - 1) (0, 0, 0) = (0, 0, -1) := by
  have hlen : (fibonacci_sphere n).length = n := by
    unfold fibonacci_sphere
    simp
  refine ⟨hlen, ?_, ?_, ?_, ?_⟩
  · unfold fibonacci_sphere
    rw [List.pairwise_map]
    exact (List.pairwise_lt_range n).imp (fun hij => fibPoint_inj n hn hij)
  · intro p hp
    unfold fibonacci_sphere at hp
    obtain ⟨i, hi, rfl⟩ := List.mem_map.mp hp
    exact fibPoint_norm n i hn (List.mem_range.mp hi)
  · have h0 : 0 < n := by omega
    rw [List.getD_eq_getElem _ _ (by rw [hlen]; exact h0)]
    unfold fibonacci_sphere
    simp only [List.getElem_map, List.getElem_range]
    exact fibPoint_first n
  · have h0 : n - 1 < n := by omega
    rw [List.getD_eq_getElem _ _ (by rw [hlen]; exact h0)]
    unfold fibonacci_sphere
    simp only [List.getElem_map, List.getElem_range]
    exact fibPoint_last n hn

/-- Witness for C5 at `N = 2`. -/
theorem fibonacci_sphere_spec_witness :
    (fibonacci_sphere 2).length = 2 ∧
    (fibonacci_sphere 2).Pairwise (fun p q => p ≠ q) ∧
    (∀ p ∈ fibonacci_sphere 2, norm3 p = 1) ∧
    (fibonacci_sphere 2).getD 0 (0, 0, 0) = (0, 0, 1) ∧
    (fibonacci_sphere 2).getD (2 - 1) (0, 0, 0) = (0, 0, -1) :=
  fibonacci_sphere_spec 2 (by decide)

end Geodome

